import Mathlib

/-!
Verification development for the directory-scraper repository
(galen-topper/scraper).  The Python sources under src/scraper are shallowly
embedded: pure functions become Lean functions, stateful loops become explicit
state passing with well-founded recursion, fallible calls return Option/Except,
and the external collaborators (HTTP fetch + HTML parse, browser rendering,
the LLM inference call, the selectolax CSS engine) are abstracted as function
parameters at exactly the interfaces the code uses them through.

Strings are modelled at the level of Unicode code points (Python's `str`),
restricted to the ASCII behaviour of `\w`, `str.lower` and `str.strip`
(the inputs exercised by the claims are ASCII).
-/

/-! ## Python string primitives (str.strip, substring tests, slicing, str(n)) -/

/-- Python whitespace for str.strip(): space, tab, LF, CR, VT, FF. -/
def isPySpace (c : Char) : Bool :=
  c = ' ' || c = '\t' || c = '\n' || c = '\r' || c = Char.ofNat 11 || c = Char.ofNat 12

/-- str.strip() on a character list: drop Python whitespace from both ends. -/
def pyStripL (l : List Char) : List Char :=
  ((l.dropWhile isPySpace).reverse.dropWhile isPySpace).reverse

/-- Python str.strip(). -/
def pyStrip (s : String) : String := String.mk (pyStripL s.toList)

/-- Python str.lower(), ASCII model. -/
def lowerStr (s : String) : String := String.mk (s.toList.map Char.toLower)

/-- Does the second list occur as a prefix of the first? (used for substring and
startswith tests). -/
def listHasPref : List Char → List Char → Bool
  | _, [] => true
  | [], _ :: _ => false
  | a :: as, b :: bs => a = b && listHasPref as bs

/-- Python substring containment: sub in hay. -/
def containsL (hay sub : List Char) : Bool :=
  match hay with
  | [] => sub.isEmpty
  | _ :: t => listHasPref hay sub || containsL t sub

/-- Python `sub in s` on strings. -/
def strContains (s sub : String) : Bool := containsL s.toList sub.toList

/-- Python s.startswith(p). -/
def strStarts (s p : String) : Bool := listHasPref s.toList p.toList

/-- Python slicing s[:n] (by code points). -/
def pyTake (s : String) (n : Nat) : String := String.mk (s.toList.take n)

/-- Decimal digit character. -/
def digitChar (d : Nat) : Char :=
  if d = 0 then '0' else if d = 1 then '1' else if d = 2 then '2'
  else if d = 3 then '3' else if d = 4 then '4' else if d = 5 then '5'
  else if d = 6 then '6' else if d = 7 then '7' else if d = 8 then '8' else '9'

/-- Decimal digits of a natural number, most significant first (Python str(n)). -/
def natDigits (n : Nat) : List Char :=
  if _h : n < 10 then [digitChar n]
  else natDigits (n / 10) ++ [digitChar (n % 10)]
  termination_by n
  decreasing_by exact Nat.div_lt_self (by omega) (by omega)

/-- Python str(n) for a natural number. -/
def natStr (n : Nat) : String := String.mk (natDigits n)

/-- Number of decimal digits of n. -/
def natLen (n : Nat) : Nat := (natDigits n).length

/-- Python '\n'.join(lines). -/
def joinNL : List String → String
  | [] => ""
  | [x] => x
  | x :: y :: xs => x ++ "\n" ++ joinNL (y :: xs)

/-! ## The email regex of models.py

`re.search(r'[\w\.-]+@[\w\.-]+\.\w+', email)` is modelled by a backtracking
matcher with Python semantics: leftmost match start wins, `+` is greedy and
backtracks.  `\w` is modelled as ASCII `[a-zA-Z0-9_]`. -/

/-- ASCII model of the regex class \w. -/
def wordChar (c : Char) : Bool := c.isAlphanum || c = '_'

/-- The regex class [\w.-]. -/
def emailChar (c : Char) : Bool := wordChar c || c = '.' || c = '-'

/-- Regex tokens occurring in the email pattern: a literal character or a
greedy one-or-more character-class repetition. -/
inductive Rax where
  | lit (c : Char)
  | plus (p : Char → Bool)

/-- Match a token sequence against a prefix of the input and return the
consumed characters, trying alternatives in the backtracking order of a
Python regex: for a greedy `+`, longest repetition first. -/
def matchRax : List Rax → List Char → Option (List Char)
  | [], _ => some []
  | .lit _ :: _, [] => none
  | .lit c :: ts, x :: xs =>
      if x = c then (matchRax ts xs).map (fun m => x :: m) else none
  | .plus p :: ts, xs =>
      let m := (xs.takeWhile p).length
      (List.range m).findSome? (fun i =>
        let n := m - i
        (matchRax ts (xs.drop n)).map (fun r => xs.take n ++ r))

/-- re.search: try every start position left to right, return the first match. -/
def raxSearch (toks : List Rax) : List Char → Option (List Char)
  | [] => matchRax toks []
  | x :: xs =>
      match matchRax toks (x :: xs) with
      | some m => some m
      | none => raxSearch toks xs

/-- The pattern [\w\.-]+@[\w\.-]+\.\w+ of OutputRecord._clean_email. -/
def emailPat : List Rax :=
  [.plus emailChar, .lit '@', .plus emailChar, .lit '.', .plus wordChar]

/-! ## models.py: OutputRecord value normalization -/

/-- OutputRecord._clean_email: narrow to the first email-pattern match,
returning the input unchanged when there is none. -/
def cleanEmail (email : String) : String :=
  match raxSearch emailPat email.toList with
  | some m => String.mk m
  | none => email

/-- OutputRecord._clean_url: strip, then prefix https:// unless the value
already starts with http://, https:// or //. -/
def cleanUrl (url : String) : String :=
  let u := pyStrip url
  if u ≠ "" && !(strStarts u "http://" || strStarts u "https://" || strStarts u "//")
  then "https://" ++ u else u

/-- The per-value body of OutputRecord.clean_data: non-strings (here: None)
pass through; strings are stripped, email-narrowed when the field name
contains "email", and URL-coerced when it contains "url" or "link". -/
def cleanValue (key : String) (v : Option String) : Option String :=
  match v with
  | none => none
  | some s =>
      let s1 := pyStrip s
      let s2 := if strContains (lowerStr key) "email" then cleanEmail s1 else s1
      let s3 := if strContains (lowerStr key) "url" || strContains (lowerStr key) "link"
                then cleanUrl s2 else s2
      some s3

/-- A record's field mapping: Python dict in insertion order, keys unique;
a key mapped to none is a field explicitly set to None, an absent key is an
absent field. -/
abbrev FieldData := List (String × Option String)

/-- OutputRecord.clean_data applied to the whole dict. -/
def cleanData (d : FieldData) : FieldData :=
  d.map (fun kv => (kv.1, cleanValue kv.1 kv.2))

/-- models.py OutputRecord (its data dict, after the clean_data validator). -/
structure OutputRecord where
  data : FieldData
  deriving DecidableEq

/-- OutputRecord(data=d): pydantic runs the clean_data validator. -/
def mkOutputRecord (d : FieldData) : OutputRecord := ⟨cleanData d⟩

/-- dict.get(k): None when the key is absent or explicitly None-valued
collapses to the stored Option. -/
def dataGet (d : FieldData) (k : String) : Option String :=
  match List.lookup k d with
  | some v => v
  | none => none

/-! ## core.py DirectoryScraper._clean_records and the dict merge of
deep_scraper.py -/

/-- Number of non-None values: sum(1 for v in data.values() if v is not None). -/
def nonNoneCount (d : FieldData) : Nat :=
  (d.filter (fun kv => kv.2.isSome)).length

/-- Insert an item into a key-sorted association list (keys are unique in a
Python dict, so comparing keys alone reproduces sorted(data.items())). -/
def insertByKey (x : String × Option String) : FieldData → FieldData
  | [] => [x]
  | y :: ys => if x.1 < y.1 then x :: y :: ys else y :: insertByKey x ys

/-- tuple(sorted(data.items())): the dict's items sorted by key. -/
def sortKeys (d : FieldData) : FieldData := d.foldr insertByKey []

/-- The dedup key used by _clean_records for one record. -/
def canonOf (r : OutputRecord) : FieldData := sortKeys r.data

/-- The dedup pass of _clean_records: keep a record when its key-sorted tuple
has not been seen, first-seen order preserved. -/
def dedupSeen (seen : List FieldData) : List OutputRecord → List OutputRecord
  | [] => []
  | r :: rs =>
      if canonOf r ∈ seen then dedupSeen seen rs
      else r :: dedupSeen (canonOf r :: seen) rs

/-- DirectoryScraper._clean_records: drop records with fewer than 2 non-None
fields, then deduplicate on the key-sorted item tuple. -/
def cleanRecords (records : List OutputRecord) : List OutputRecord :=
  dedupSeen [] (records.filter (fun r => 2 ≤ nonNoneCount r.data))

/-- The keys of a field dict. -/
def fieldKeys (d : FieldData) : List String := d.map Prod.fst

/-- Python {**a, **b}: a's keys in a's order with b's value on collision,
then b's new keys in b's order. -/
def dictMerge (a b : FieldData) : FieldData :=
  (a.map (fun kv =>
    (kv.1, match List.lookup kv.1 b with
           | some v => v
           | none => kv.2)))
  ++ b.filter (fun kv => !(fieldKeys a).contains kv.1)

/-! ## parser.py DirectoryParser

The selectolax CSS engine is the external collaborator here: selectors are
opaque strings the LLM produced, so `_extract_field` is abstracted as an
oracle from (element, selector) to its outcome.  `.fault` is an exception
escaping selector evaluation (caught per field by `_extract_from_element`),
`.val none` is "no match / empty text", `.val (some v)` is the raw extracted
value (href preferred over src over stripped text, as in `_extract_field`). -/

inductive FieldVal where
  | fault
  | val (v : Option String)
  deriving DecidableEq

/-- The document-level view parse_page needs: tree.css for the record
boundary selector, the tree itself as an extraction root, and the
per-element field evaluation oracle. -/
structure PageEngine (Elem : Type) where
  css : String → List Elem
  root : Elem
  ev : Elem → String → FieldVal

/-- Is a field name URL/link-like (parser.py line 40)? -/
def urlishField (name : String) : Bool :=
  strContains (lowerStr name) "url" || strContains (lowerStr name) "link"

/-- The per-field loop body of _extract_from_element, as the entry it
contributes: an exception (including css(None) on an absent selector) stores
None for the field; a falsy value stores nothing; a truthy value is stored,
urljoin-resolved for URL/link fields (uj abstracts urljoin(base_url, ·)). -/
def fieldEntry {Elem : Type} (ev : Elem → String → FieldVal) (uj : String → String)
    (e : Elem) (fs : String × Option String) : Option (String × Option String) :=
  match fs.2 with
  | none => some (fs.1, none)
  | some sel =>
      match ev e sel with
      | .fault => some (fs.1, none)
      | .val none => none
      | .val (some v) =>
          if v ≠ "" then
            some (fs.1, some (if urlishField fs.1 then uj v else v))
          else none

/-- The field loop of _extract_from_element building the data dict. -/
def extractLoop {Elem : Type} (sels : List (String × Option String))
    (ev : Elem → String → FieldVal) (uj : String → String) (e : Elem) : FieldData :=
  sels.foldl (fun data fs =>
    match fieldEntry ev uj e fs with
    | some ent => data ++ [ent]
    | none => data) []

/-- Python any(data.values()): some value is truthy (non-None, non-empty). -/
def anyTruthyVal (d : FieldData) : Bool :=
  d.any (fun kv => match kv.2 with | some v => v ≠ "" | none => false)

/-- _extract_from_element: the built dict, or {} when every value is falsy. -/
def extractFromElement {Elem : Type} (sels : List (String × Option String))
    (ev : Elem → String → FieldVal) (uj : String → String) (e : Elem) : FieldData :=
  let data := extractLoop sels ev uj e
  if anyTruthyVal data then data else []

/-- parse_page: one record per boundary-selector match (or one from the
document root when there is no boundary selector), skipping empty dicts;
each record is built through the OutputRecord validator. -/
def parsePage {Elem : Type} (eng : PageEngine Elem) (listItemSel : Option String)
    (sels : List (String × Option String)) (uj : String → String) : List OutputRecord :=
  match listItemSel with
  | some sel =>
      (eng.css sel).foldr (fun item recs =>
        let rd := extractFromElement sels eng.ev uj item
        if rd = [] then recs else mkOutputRecord rd :: recs) []
  | none =>
      let rd := extractFromElement sels eng.ev uj eng.root
      if rd = [] then [] else [mkOutputRecord rd]

/-! ## deep_scraper.py DeepScraper

`_enrich_single_record`'s collaborators (httpx/browser fetch, the cached or
freshly inferred selector map, and parse_page on the detail HTML) are
abstracted as one fallible function from the detail URL to the detail page's
parsed records: an exception anywhere in that chain makes the whole task an
exception, which enrich_records catches per record.  The selector cache only
chooses which selector map that chain uses, so it is folded into the
abstraction. -/

/-- _enrich_single_record: pass through records with a falsy detail URL,
otherwise fetch/extract the detail page and merge its first record's fields
over the original via {**record.data, **detail_data}, rebuilt through the
OutputRecord validator. -/
def enrichSingle (detailPage : String → Except Unit (List OutputRecord))
    (urlField : String) (record : OutputRecord) : Except Unit OutputRecord :=
  match dataGet record.data urlField with
  | none => .ok record
  | some u =>
      if u = "" then .ok record
      else
        match detailPage u with
        | .error e => .error e
        | .ok [] => .ok record
        | .ok (d :: _) => .ok (mkOutputRecord (dictMerge record.data d.data))

/-- The per-task handling in enrich_records' gather loop: an exception keeps
the original record in place. -/
def enrichPass (detailPage : String → Except Unit (List OutputRecord))
    (urlField : String) (record : OutputRecord) : OutputRecord :=
  match enrichSingle detailPage urlField record with
  | .ok r => r
  | .error _ => record

/-- enrich_records: process the list in batches of max_concurrent, appending
each batch's results in order.  Python's range() rejects a zero step, and the
repository always constructs DeepScraper with max_concurrent = 3; the mc = 0
case is modelled arbitrarily as [] and excluded by hypotheses. -/
def enrichRecords (detailPage : String → Except Unit (List OutputRecord))
    (urlField : String) (mc : Nat) (records : List OutputRecord) : List OutputRecord :=
  if _h : mc = 0 ∨ records = [] then []
  else
    ((records.take mc).map (enrichPass detailPage urlField))
      ++ enrichRecords detailPage urlField mc (records.drop mc)
  termination_by records.length
  decreasing_by
    rcases records with _ | ⟨r, rs⟩
    · simp_all
    · simp only [List.length_drop, List.length_cons]
      omega

/-! ## llm.py LLMSelectorInference.infer_selectors: the retry loop

The HTTP POST to the inference API is abstracted as a per-attempt outcome:
success, a 429 rate-limit HTTPStatusError, or any other failure (a non-429
HTTPStatusError or an uncaught exception — both propagate).  The trace
records how many requests were issued, the sleeps performed, and how the
loop ended. -/

inductive LLMOutcome where
  | success
  | rateLimited
  | failure
  deriving DecidableEq

inductive InferErr where
  | rateLimit
  | fatal
  deriving DecidableEq

structure RetryTrace where
  calls : Nat
  delays : List Nat
  outcome : Except InferErr Unit

/-- The body of `for attempt in range(max_retries)`: attempt counts up from
`attempt`; on a 429 before the last attempt, sleep base_delay * 2**attempt
and continue; on a 429 at the last attempt re-raise; on any other failure
raise immediately; on success break.  The `attempt ≥ mr` fallback is
unreachable from attempt 0 when mr > 0 (the source fixes mr = 5). -/
def retryGo (att : Nat → LLMOutcome) (mr bd : Nat) (attempt : Nat) : RetryTrace :=
  if _h : attempt < mr then
    match att attempt with
    | .success => ⟨1, [], .ok ()⟩
    | .failure => ⟨1, [], .error .fatal⟩
    | .rateLimited =>
        if attempt < mr - 1 then
          let t := retryGo att mr bd (attempt + 1)
          ⟨t.calls + 1, bd * 2 ^ attempt :: t.delays, t.outcome⟩
        else ⟨1, [], .error .rateLimit⟩
  else ⟨0, [], .error .fatal⟩
  termination_by mr - attempt
  decreasing_by omega

/-- infer_selectors' retry loop with the source's constants:
max_retries = 5, base_delay = 2. -/
def inferSelectorsRetry (att : Nat → LLMOutcome) : RetryTrace :=
  retryGo att 5 2 0

/-! ## core.py DirectoryScraper: the pagination loops

`_fetch_and_parse` bundles client.get, raise_for_status, parse_page and
find_next_page_url into one task whose failure anywhere makes the whole task
an exception, so the httpx web collaborator maps a URL to `none` (task
raised) or the parsed `(records, next page URL)` pair.  The browser loop
runs the same steps inline inside one try, where `parse_page` may succeed
and `all_records.extend` happen before `find_next_page_url` raises, so the
browser collaborator distinguishes that partial outcome. -/

structure FetchedPage where
  records : List OutputRecord
  nextUrl : Option String

abbrev HttpxWeb := String → Option FetchedPage

structure CrawlState where
  queue : List String
  visited : List String
  recs : List OutputRecord
  pageCount : Nat
  log : List String

/-- `if next_url and next_url not in self.visited_urls:` — mark visited at
discovery time and enqueue. -/
def enqueueNext (st : CrawlState) (next : Option String) : CrawlState :=
  match next with
  | some nu =>
      if nu ≠ "" ∧ nu ∉ st.visited
      then { st with visited := nu :: st.visited, queue := st.queue ++ [nu] }
      else st
  | none => st

/-- Handling of one gathered result in _scrape_with_httpx: an exception is
logged and skipped; otherwise extend the record list, enqueue the next page
if new, and count the page. -/
def httpxStep (web : HttpxWeb) (st : CrawlState) (u : String) : CrawlState :=
  match web u with
  | none => st
  | some p =>
      let st1 := enqueueNext { st with recs := st.recs ++ p.records } p.nextUrl
      { st1 with pageCount := st1.pageCount + 1 }

/-- The intermediate state of httpxStep after appending the fetched records. -/
def fetchedState (st : CrawlState) (p : FetchedPage) : CrawlState :=
  { st with recs := st.recs ++ p.records }

/-- Closed form of the successful-fetch branch of httpxStep. -/
def httpxStepSome (st : CrawlState) (p : FetchedPage) : CrawlState :=
  { enqueueNext (fetchedState st p) p.nextUrl with
      pageCount := (enqueueNext (fetchedState st p) p.nextUrl).pageCount + 1 }

/-- The `for result in results:` pass over one gathered batch, in order. -/
def processResults (web : HttpxWeb) (batch : List String) (st : CrawlState) : CrawlState :=
  batch.foldl (httpxStep web) st

/-- The `while pages_to_scrape and page_count < self.max_pages:` loop of
_scrape_with_httpx: slice off a batch of max_concurrent URLs, fetch them all
(recorded in the log), process the results.  Termination holds because each
iteration either consumes queue entries without replacement or advances the
page counter once per enqueued replacement. -/
def scrapeLoop (web : HttpxWeb) (maxPages maxConc : Nat) (hmc : 0 < maxConc)
    (st : CrawlState) : CrawlState :=
  if h : st.queue = [] ∨ ¬ st.pageCount < maxPages then st
  else
    scrapeLoop web maxPages maxConc hmc
      (processResults web (st.queue.take maxConc)
        { st with queue := st.queue.drop maxConc,
                  log := st.log ++ st.queue.take maxConc })
  termination_by (maxPages - st.pageCount) + st.queue.length
  decreasing_by
    push_neg at h
    obtain ⟨hqne, hpc⟩ := h
    have key : ∀ (b : List String) (s0 : CrawlState),
        (processResults web b s0).pageCount
            = s0.pageCount + b.countP (fun u => (web u).isSome)
          ∧ (processResults web b s0).queue.length
            ≤ s0.queue.length + b.countP (fun u => (web u).isSome) := by
      intro b
      induction b with
      | nil => intro s0; simp [processResults]
      | cons x xs ih =>
          intro s0
          have hfold : processResults web (x :: xs) s0
              = processResults web xs (httpxStep web s0 x) := rfl
          have hx := ih (httpxStep web s0 x)
          have hstep : (httpxStep web s0 x).pageCount
                = s0.pageCount + (if (web x).isSome then 1 else 0)
              ∧ (httpxStep web s0 x).queue.length
                ≤ s0.queue.length + (if (web x).isSome then 1 else 0) := by
            unfold httpxStep enqueueNext
            rcases hw : web x with _ | p
            · simp [hw]
            · rcases hnu : p.nextUrl with _ | nu
              · simp [hw, hnu]
              · simp only [hw, hnu, Option.isSome_some]
                split
                · simp
                · simp
          rw [hfold]
          constructor
          · rw [hx.1, hstep.1, List.countP_cons]
            by_cases hwx : (web x).isSome <;> simp [hwx] <;> omega
          · calc (processResults web xs (httpxStep web s0 x)).queue.length
                ≤ (httpxStep web s0 x).queue.length
                    + xs.countP (fun u => (web u).isSome) := hx.2
              _ ≤ s0.queue.length + (if (web x).isSome then 1 else 0)
                    + xs.countP (fun u => (web u).isSome) := by omega
              _ ≤ s0.queue.length + (x :: xs).countP (fun u => (web u).isSome) := by
                    rw [List.countP_cons]
                    by_cases hwx : (web x).isSome <;> simp [hwx] <;> omega
    obtain ⟨h1, h2⟩ := key (st.queue.take maxConc)
      { st with queue := st.queue.drop maxConc, log := st.log ++ st.queue.take maxConc }
    dsimp only at h1 h2
    have hcount : (st.queue.take maxConc).countP (fun u => (web u).isSome)
        ≤ (st.queue.take maxConc).length := List.countP_le_length _
    have hlen : (st.queue.take maxConc).length = min maxConc st.queue.length := by simp
    have hdrop : (st.queue.drop maxConc).length = st.queue.length - maxConc := by simp
    have hqlen : 0 < st.queue.length := List.length_pos.mpr hqne
    omega

structure ScraperResult where
  url : String
  records : List OutputRecord
  totalCount : Nat

/-- The observable outcome of one scrape run, with the loop's fetch log, the
full fetch log (the pre-loop inference fetch of the start URL followed by the
loop's fetches), the final visited set and the final page counter. -/
structure ScrapeRun where
  result : ScraperResult
  loopLog : List String
  fullLog : List String
  visitedFinal : List String
  pageCount : Nat

/-- _scrape_with_httpx without a deep scraper configured: fetch the start
URL once for selector inference (a failure there raises out of scrape),
run the pagination loop seeded with the start URL, and return the records
as gathered — this path applies no _clean_records post-processing. -/
def scrapeHttpx (web : HttpxWeb) (url : String) (maxPages maxConc : Nat)
    (hmc : 0 < maxConc) : Option ScrapeRun :=
  match web url with
  | none => none
  | some _ =>
      let fin := scrapeLoop web maxPages maxConc hmc ⟨[url], [url], [], 0, []⟩
      some { result := ⟨url, fin.recs, fin.recs.length⟩,
             loopLog := fin.log, fullLog := url :: fin.log,
             visitedFinal := fin.visited, pageCount := fin.pageCount }

inductive BrowserPage where
  | err
  | errAfterRecs (recs : List OutputRecord)
  | ok (recs : List OutputRecord) (next : Option String)

abbrev BrowserWeb := String → BrowserPage

/-- The successful part of one browser-loop iteration: extend the records,
enqueue a fresh next-page URL, count the page. -/
def browserOkStep (st : CrawlState) (recs : List OutputRecord)
    (next : Option String) : CrawlState :=
  let st2 := enqueueNext { st with recs := st.recs ++ recs } next
  { st2 with pageCount := st2.pageCount + 1 }

/-- The `while` loop of _scrape_with_browser: pop one URL, fetch and parse
inside one try; a failure before the record extension contributes nothing, a
failure between extension and pagination discovery keeps the records; only a
fully successful iteration increments page_count. -/
def scrapeBrowserLoop (web : BrowserWeb) (maxPages : Nat) (st : CrawlState) : CrawlState :=
  if h : st.queue = [] ∨ ¬ st.pageCount < maxPages then st
  else
    match hq : st.queue with
    | [] => st
    | u :: rest =>
        match web u with
        | .err =>
            scrapeBrowserLoop web maxPages { st with queue := rest, log := st.log ++ [u] }
        | .errAfterRecs recs =>
            scrapeBrowserLoop web maxPages
              { st with queue := rest, log := st.log ++ [u], recs := st.recs ++ recs }
        | .ok recs next =>
            scrapeBrowserLoop web maxPages
              (browserOkStep { st with queue := rest, log := st.log ++ [u] } recs next)
  termination_by (maxPages - st.pageCount) + st.queue.length
  decreasing_by
    all_goals push_neg at h
    all_goals obtain ⟨hqne, hpc⟩ := h
    · simp only [hq, List.length_cons]
      omega
    · simp only [hq, List.length_cons]
      omega
    · have henq : ∀ (s0 : CrawlState) (nx : Option String),
          (enqueueNext s0 nx).queue.length ≤ s0.queue.length + 1
            ∧ (enqueueNext s0 nx).pageCount = s0.pageCount := by
        intro s0 nx
        unfold enqueueNext
        rcases nx with _ | nu
        · simp
        · simp only []
          split
          · simp
          · simp
      have hok : ∀ (s0 : CrawlState) (rcs : List OutputRecord) (nx : Option String),
          (browserOkStep s0 rcs nx).queue.length ≤ s0.queue.length + 1
            ∧ (browserOkStep s0 rcs nx).pageCount = s0.pageCount + 1 := by
        intro s0 rcs nx
        have h2 := henq { s0 with recs := s0.recs ++ rcs } nx
        dsimp only at h2
        refine ⟨h2.1, ?_⟩
        show (enqueueNext { s0 with recs := s0.recs ++ rcs } nx).pageCount + 1
            = s0.pageCount + 1
        rw [h2.2]
      have h3 := hok { st with queue := rest, log := st.log ++ [u] } recs next
      dsimp only at h3
      simp only [hq, List.length_cons]
      omega

/-- _scrape_with_browser without a deep scraper configured: inference fetch
of the start URL, the sequential loop, then the _clean_records
post-processing that only this path performs. -/
def scrapeBrowser (web : BrowserWeb) (url : String) (maxPages : Nat) : Option ScrapeRun :=
  match web url with
  | .err => none
  | _ =>
      let fin := scrapeBrowserLoop web maxPages ⟨[url], [url], [], 0, []⟩
      let cleaned := cleanRecords fin.recs
      some { result := ⟨url, cleaned, cleaned.length⟩,
             loopLog := fin.log, fullLog := url :: fin.log,
             visitedFinal := fin.visited, pageCount := fin.pageCount }

/-! ## dom_sketch.py: the DOM model and make_dom_sketch

The selectolax parse tree is modelled as a node tree; `HTMLParser(html)` is
the external parse collaborator, so make_dom_sketch takes both the raw html
string (used verbatim by the final fallback) and the parsed tree.  The CSS
queries the module issues are fixed (tag lists, [class*=…], [class],
'thead th, thead td, tr:first-child th'), and are
implemented as the corresponding tree walks in document (preorder) order;
node.css(sel) matches proper descendants of its receiver. -/

inductive Dom where
  | elem (tag : String) (attrs : List (String × String)) (children : List Dom)
  | txt (s : String)

def tagOf : Dom → String
  | .elem t _ _ => t
  | .txt _ => ""

/-- node.attributes.get(k): the attribute value when present. -/
def getAttr : Dom → String → Option String
  | .elem _ attrs _, k => List.lookup k attrs
  | .txt _, _ => none

/-- node.attributes.get(k, ''). -/
def attrD (d : Dom) (k : String) : String := (getAttr d k).getD ""

mutual
/-- All element nodes strictly below a node, in document (preorder) order. -/
def descElems : Dom → List Dom
  | .txt _ => []
  | .elem _ _ cs => descElemsL cs
def descElemsL : List Dom → List Dom
  | [] => []
  | c :: cs =>
      (match c with
       | .elem _ _ _ => c :: descElems c
       | .txt _ => []) ++ descElemsL cs
end

/-- Tags removed by `for tag in tree.css('script, style, svg, noscript'):
tag.decompose()`. -/
def noiseTag (t : String) : Bool :=
  t = "script" || t = "style" || t = "svg" || t = "noscript"

mutual
/-- The tree after decomposing every script/style/svg/noscript subtree. -/
def stripNoise : Dom → Dom
  | .txt s => .txt s
  | .elem t a cs => .elem t a (stripNoiseL cs)
def stripNoiseL : List Dom → List Dom
  | [] => []
  | c :: cs =>
      (match c with
       | .elem t _ _ => if noiseTag t then [] else [stripNoise c]
       | .txt s => [Dom.txt s]) ++ stripNoiseL cs
end

mutual
/-- node.text(deep=True, strip=True): concatenation of each text chunk in the
subtree, each individually stripped. -/
def textDS : Dom → String
  | .txt s => pyStrip s
  | .elem _ _ cs => textDSL cs
def textDSL : List Dom → String
  | [] => ""
  | c :: cs => textDS c ++ textDSL cs
end

/-- node.css for a comma list of bare tag selectors. -/
def cssTag (tags : List String) (d : Dom) : List Dom :=
  (descElems d).filter (fun e => tags.contains (tagOf e))

/-- node.css('[class]'). -/
def hasClassIn (d : Dom) : List Dom :=
  (descElems d).filter (fun e => (getAttr e "class").isSome)

/-- Python " ".join. -/
def joinSp : List String → String
  | [] => ""
  | [x] => x
  | x :: y :: xs => x ++ " " ++ joinSp (y :: xs)

/-- One pass of re.sub(r'\s+', ' ', text): the flag records whether the
previous character was whitespace already replaced. -/
def collapseGo : Bool → List Char → List Char
  | _, [] => []
  | prevWs, c :: cs =>
      if isPySpace c then
        if prevWs then collapseGo true cs else ' ' :: collapseGo true cs
      else c :: collapseGo false cs

/-- dom_sketch._truncate: collapse whitespace runs, strip, cut to max_len
with an ellipsis marker. -/
def truncateText (s : String) (maxLen : Nat) : String :=
  let t := String.mk (pyStripL (collapseGo false s.toList))
  if maxLen < t.length then pyTake t maxLen ++ "..." else t

/-- dom_sketch._describe_cell. -/
def describeCell (cell : Dom) (maxText : Nat) : String :=
  match cssTag ["a"] cell with
  | link :: _ =>
      "<a href=\"" ++ pyTake (attrD link "href") 40 ++ "\">"
        ++ truncateText (textDS link) 30 ++ "</a>"
  | [] =>
      match (hasClassIn cell).filter (fun ch =>
          ["name", "Name", "value", "Value", "text"].any
            (fun k => strContains (attrD ch "class") k)) with
      | ch :: _ =>
          "<" ++ tagOf ch ++ " class=\"" ++ pyTake (attrD ch "class") 30 ++ "\">"
            ++ truncateText (textDS ch) maxText ++ "</" ++ tagOf ch ++ ">"
      | [] => truncateText (textDS cell) maxText

/-- table.css('thead th, thead td, tr:first-child th') walked with ancestor
flags: whether a strict ancestor (within the table) is a thead, and whether
one is a tr that is the first element child of its parent; `firstSlot` is true
while no element has been seen yet in the current child list. -/
def headCellsL (inThead inFirstTr firstSlot : Bool) : List Dom → List Dom
  | [] => []
  | (.txt _) :: cs => headCellsL inThead inFirstTr firstSlot cs
  | (.elem t a ch) :: cs =>
      (if (inThead && (t = "th" || t = "td")) || (inFirstTr && t = "th")
       then [Dom.elem t a ch] else [])
        ++ headCellsL (inThead || t = "thead")
             (inFirstTr || (t = "tr" && firstSlot)) true ch
        ++ headCellsL inThead inFirstTr false cs

def headCells : Dom → List Dom
  | .txt _ => []
  | .elem _ _ ch => headCellsL false false true ch

/-- The opening table line of _sketch_table. -/
def tableLine0 (table : Dom) : String :=
  let tableClass := pyTake (attrD table "class") 100
  let tableId := pyTake (attrD table "id") 50
  if tableClass ≠ "" then "<table class=\"" ++ tableClass ++ "\">"
  else if tableId ≠ "" then "<table id=\"" ++ tableId ++ "\">"
  else "<table>"

/-- One header cell line of _sketch_table. -/
def thLine (h : Dom) : String :=
  let text := truncateText (textDS h) 60
  let hClass := pyTake (attrD h "class") 60
  if hClass ≠ "" then "    <th class=\"" ++ hClass ++ "\">" ++ text ++ "</th>"
  else "    <th>" ++ text ++ "</th>"

/-- The header block of _sketch_table. -/
def tableHeaderLines (table : Dom) : List String :=
  let headers := headCells table
  if headers.isEmpty then []
  else ["  <thead><tr>"] ++ (headers.take 10).map thLine ++ ["  </tr></thead>"]

/-- One data cell line of _sketch_table. -/
def tdLine (maxText : Nat) (cell : Dom) : String :=
  let cls := pyTake (attrD cell "class") 80
  let content := describeCell cell maxText
  if cls ≠ "" then "      <td class=\"" ++ cls ++ "\">" ++ content ++ "</td>"
  else "      <td>" ++ content ++ "</td>"

/-- The lines of one sampled row of _sketch_table. -/
def trBlock (maxText : Nat) (row : Dom) : List String :=
  let rowClass := pyTake (attrD row "class") 60
  [if rowClass ≠ "" then "    <tr class=\"" ++ rowClass ++ "\">" else "    <tr>"]
    ++ ((cssTag ["td"] row).take 10).map (tdLine maxText)
    ++ ["    </tr>"]

/-- The rows kept by `all_rows = [r for r in rows if r.css('td')]`. -/
def allRowsOf (table : Dom) : List Dom :=
  (cssTag ["tr"] table).filter (fun r => 1 ≤ (cssTag ["td"] r).length)

/-- dom_sketch._sketch_table. -/
def sketchTable (table : Dom) (maxRows maxText : Nat) : String :=
  joinNL ([tableLine0 table] ++ tableHeaderLines table ++ ["  <tbody>"]
    ++ ((allRowsOf table).take maxRows).flatMap (trBlock maxText)
    ++ ["  </tbody>", "</table>",
        "<!-- Total rows: " ++ natStr (allRowsOf table).length
          ++ " (showing " ++ natStr ((allRowsOf table).take maxRows).length ++ ") -->"])

/-- The class-annotation labels of _show_descendants. -/
def annotateCls (cls : String) : String :=
  if ["_coName", "coName", "CompanyName", "company-name",
      "name", "Name", "title", "Title"].any (fun k => strContains cls k) then
    "class=\"" ++ cls ++ "\" ← NAME"
  else if ["_coLocation", "coLocation", "Location", "location", "loc"].any
      (fun k => strContains cls k) then
    "class=\"" ++ cls ++ "\" ← LOCATION"
  else if ["desc", "Desc", "tagline", "Tagline"].any (fun k => strContains cls k) then
    "class=\"" ++ cls ++ "\" ← DESC"
  else if ["batch", "Batch"].any (fun k => strContains cls k) then
    "class=\"" ++ cls ++ "\" ← BATCH"
  else if ["industry", "Industry", "category", "Category"].any
      (fun k => strContains cls k) then
    "class=\"" ++ cls ++ "\" ← INDUSTRY"
  else "class=\"" ++ cls ++ "\""

/-- The attribute string of one _show_descendants line. -/
def descAttrStr (child : Dom) : String :=
  joinSp ((if pyTake (attrD child "class") 100 ≠ "" then
      [annotateCls (pyTake (attrD child "class") 100)] else [])
    ++ (if pyTake (attrD child "href") 80 ≠ "" then
      ["href=\"" ++ pyTake (attrD child "href") 80 ++ "\""] else []))

/-- The truncated text of one _show_descendants line. -/
def descTextShort (child : Dom) : String :=
  if textDS child ≠ "" then truncateText (textDS child) 50 else ""

/-- One candidate descendant line of _show_descendants. -/
def descLine (child : Dom) : Option String :=
  let tag := tagOf child
  let attrStr := descAttrStr child
  let textShort := descTextShort child
  if attrStr ≠ "" ∧ textShort ≠ "" then
    some ("  <" ++ tag ++ " " ++ attrStr ++ ">" ++ textShort ++ "</" ++ tag ++ ">")
  else if attrStr ≠ ""
      ∧ (["← NAME", "← LOCATION", "← DESC", "← BATCH", "← INDUSTRY"].any
          (fun mk => strContains attrStr mk)) then
    some ("  <" ++ tag ++ " " ++ attrStr ++ "/>")
  else if textShort ≠ "" ∧ 5 < textShort.length then
    some ("  <" ++ tag ++ ">" ++ textShort ++ "</" ++ tag ++ ">")
  else none

/-- dom_sketch._show_descendants at indent 1 (its only call site). -/
def showDescLines (e : Dom) : List String :=
  let significant := (descElems e).filter (fun el =>
      attrD el "class" ≠ "" || 2 < (textDS el).length)
  (significant.take 50).filterMap descLine

/-- The attribute string of one sampled element of _sketch_repeated_elements. -/
def repAttrStr (e : Dom) : String :=
  joinSp ((if pyTake (attrD e "class") 80 ≠ "" then
      ["class=\"" ++ pyTake (attrD e "class") 80 ++ "\""] else [])
    ++ (if pyTake (attrD e "href") 80 ≠ "" then
      ["href=\"" ++ pyTake (attrD e "href") 80 ++ "\""] else []))

/-- The lines of one sampled element of _sketch_repeated_elements. -/
def repBlock (e : Dom) : List String :=
  ["<" ++ tagOf e ++ " " ++ repAttrStr e ++ ">"]
    ++ showDescLines e
    ++ ["</" ++ tagOf e ++ ">", ""]

/-- The sample kept by _sketch_repeated_elements: elements with substantial
text, the first five plain elements when none qualify. -/
def repSample (elements : List Dom) : List Dom :=
  let filtered := (elements.filter (fun e => 10 < (textDS e).length)).take 5
  if filtered.isEmpty then elements.take 5 else filtered

/-- dom_sketch._sketch_repeated_elements. -/
def sketchRepeated (elements : List Dom) : String :=
  joinNL ((repSample elements).flatMap repBlock
    ++ ["<!-- Total items: " ++ natStr (repSample elements).length
          ++ " shown, " ++ natStr elements.length ++ " total -->"])

/-- Python str.split() (split on whitespace runs, no empty tokens). -/
def pySplitWsL : List Char → List (List Char)
  | [] => []
  | c :: cs =>
      if isPySpace c then pySplitWsL cs
      else (c :: cs.takeWhile (fun x => !isPySpace x))
        :: pySplitWsL (cs.dropWhile (fun x => !isPySpace x))
  termination_by l => l.length
  decreasing_by
    · simp_arith
    · have hdw : ∀ (l : List Char),
          (l.dropWhile (fun x => !isPySpace x)).length ≤ l.length := by
        intro l
        induction l with
        | nil => simp
        | cons a l2 ih =>
            by_cases hx : (!isPySpace a) = true
            · simp only [List.dropWhile_cons, hx, if_true, List.length_cons]
              omega
            · simp [List.dropWhile_cons, hx]
      simp only [List.length_cons]
      exact Nat.lt_succ_of_le (hdw _)

/-- dom_sketch._get_table_selector; `none` is the IndexError that
split()[0] raises when the class attribute is whitespace-only. -/
def tableSelector (table : Dom) : Option String :=
  let tid := attrD table "id"
  if tid ≠ "" then some ("#" ++ tid)
  else
    let cls := attrD table "class"
    if cls ≠ "" then
      match pySplitWsL cls.toList with
      | tok :: _ => some ("table." ++ String.mk tok)
      | [] => none
    else some "table"

/-- The sketch metadata dict: type, count, suggested_selector. -/
structure SketchMeta where
  mtype : String
  count : Nat
  suggested : String

/-- Strategy 1 row qualification: rows with at least one td cell, or — when
fewer than 5 such rows exist — rows whose concatenated td/th text exceeds 20
characters. -/
def dataRowsOf (table : Dom) : List Dom :=
  let rows := cssTag ["tr"] table
  let d1 := rows.filter (fun r => 1 ≤ (cssTag ["td"] r).length)
  if d1.length < 5 then
    rows.filter (fun row =>
      20 < (((cssTag ["td", "th"] row).map textDS).foldr (· ++ ·) "").length)
  else d1

inductive SketchStep where
  | crashed
  | nomatch
  | found (r : String × SketchMeta)

/-- The `for table in tables:` scan of strategy 1: the first table with at
least 3 qualifying rows wins. -/
def tableScan (mi mt : Nat) : List Dom → SketchStep
  | [] => .nomatch
  | t :: ts =>
      let dr := dataRowsOf t
      if 3 ≤ dr.length then
        match tableSelector t with
        | some sel => .found (sketchTable t mi mt, ⟨"table", dr.length, sel⟩)
        | none => .crashed
      else tableScan mi mt ts

def navTag (t : String) : Bool := t = "nav" || t = "header" || t = "footer"

/-- Strategy 2 candidate collection for one keyword: tree.css('[class*=kw]')
filtered to the allowed tags, text length at least 30, and no
nav/header/footer strict ancestor, in document order. -/
def collectKwL (kw : String) (allowed : List String) (underNav : Bool) :
    List Dom → List Dom
  | [] => []
  | (.txt _) :: cs => collectKwL kw allowed underNav cs
  | (.elem t a ch) :: cs =>
      (if (match List.lookup "class" a with
           | some c => strContains c kw
           | none => false)
          && allowed.contains t
          && !(decide ((textDS (Dom.elem t a ch)).length < 30))
          && !underNav
       then [Dom.elem t a ch] else [])
        ++ collectKwL kw allowed (underNav || navTag t) ch
        ++ collectKwL kw allowed underNav cs

def collectKw (kw : String) (allowed : List String) : Dom → List Dom
  | .txt _ => []
  | .elem _ _ ch => collectKwL kw allowed false ch

/-- The ordered keyword/tag-allow-list patterns of strategy 2. -/
def kwPatterns : List (String × List String) :=
  [("company", ["a", "div", "article"]),
   ("member", ["div", "article", "li"]),
   ("profile", ["div", "article", "a"]),
   ("card", ["div", "article"]),
   ("listing", ["div", "article", "li"]),
   ("entry", ["div", "article", "li"]),
   ("result", ["div", "li"])]

/-- Strategy 2 scan: first keyword with at least 10 surviving containers. -/
def kwScan (mi : Nat) (tree : Dom) : List (String × List String) →
    Option (String × SketchMeta)
  | [] => none
  | (kw, allowed) :: ps =>
      let containers := collectKw kw allowed tree
      if 10 ≤ containers.length then
        some (sketchRepeated (containers.take mi),
          ⟨"repeated_divs", containers.length,
            tagOf (containers.headD (.txt "")) ++ "[class*=\"" ++ kw ++ "\"]"⟩)
      else kwScan mi tree ps

/-- The content markers of strategy 3. -/
def markerIn (t : String) : Bool :=
  ["phone", "email", "@", "tel:", "http"].any
    (fun m => strContains (lowerStr t) m)

/-- dom_sketch.make_dom_sketch; `none` is the IndexError escape of
_get_table_selector (split()[0] on a whitespace-only class). -/
def makeDomSketch (html : String) (tree : Dom) (maxItems maxText : Nat) :
    Option (String × SketchMeta) :=
  let t := stripNoise tree
  match tableScan maxItems maxText (cssTag ["table"] t) with
  | .crashed => none
  | .found r => some r
  | .nomatch =>
      match kwScan maxItems t kwPatterns with
      | some r => some r
      | none =>
          let substantial := (cssTag ["div", "article", "li"] t).filter (fun e =>
              50 < (textDS e).length && markerIn (textDS e))
          if 5 ≤ substantial.length then
            some (sketchRepeated (substantial.take maxItems),
              ⟨"content_divs", substantial.length,
                tagOf (substantial.headD (.txt ""))⟩)
          else some (pyTake html 25000, ⟨"unknown", 0, "N/A"⟩)

mutual
/-- Longest tag name in a subtree (the node included). -/
def maxTagLen : Dom → Nat
  | .txt _ => 0
  | .elem t _ cs => Nat.max t.length (maxTagLenL cs)
def maxTagLenL : List Dom → Nat
  | [] => 0
  | c :: cs => Nat.max (maxTagLen c) (maxTagLenL cs)
end

mutual
/-- Number of element nodes in a subtree (the node included). -/
def elemCount : Dom → Nat
  | .txt _ => 0
  | .elem _ _ cs => 1 + elemCountL cs
def elemCountL : List Dom → Nat
  | [] => 0
  | c :: cs => elemCount c + elemCountL cs
end

/-- The bound claimed for the sketch size: a constant in max_items, max_text
and the longest tag name, plus the decimal digit count of the element count
(the table strategy prints its total row count). -/
def sketchBound (mi mt T C : Nat) : Nat :=
  25000 + (mi + 60) * (500 + mt + 2 * T) * 12 + 2 * natLen C

/-- Did a browser-loop iteration fully succeed? -/
def isOkPage : BrowserPage → Bool
  | .ok _ _ => true
  | _ => false

/-! ## Concrete test fixtures used by the counterexamples and witnesses -/

def origC2 : OutputRecord :=
  ⟨[("name", some "Ada Lovelace"), ("email", some "ada@example.com"),
    ("profile_url", some "https://example.com/ada")]⟩

/-- A detail record as the parser produces it when the bio selector matched
and the email selector raised (parser.py line 44 stores None). -/
def detailC2 : OutputRecord := ⟨[("bio", some "Mathematician"), ("email", none)]⟩

def dpC2 : String → Except Unit (List OutputRecord) := fun _ => .ok [detailC2]

/-- Five record-boundary matches, a name-matching descendant in the first
three only, with name the only requested field. -/
def engC3 : PageEngine Nat :=
  ⟨fun _ => [0, 1, 2, 3, 4], 99,
   fun i _ => if i < 3 then .val (some "Alice Smith") else .val none⟩

/-- Five record-boundary matches; the first three have a name, the last two
only a phone. -/
def engC3b : PageEngine Nat :=
  ⟨fun _ => [0, 1, 2, 3, 4], 99,
   fun i sel =>
     if sel = "h3" then (if i < 3 then .val (some "Alice Smith") else .val none)
     else (if i < 3 then .val none else .val (some "555-0100"))⟩

/-- A field evaluation where the email selector raises and every other
selector finds a value. -/
def evC4 : Unit → String → FieldVal :=
  fun _ sel => if sel = ".mail" then .fault else .val (some "Bob")

def attRateC5 : Nat → LLMOutcome := fun _ => .rateLimited

def attFailC5 : Nat → LLMOutcome := fun i => if i < 2 then .rateLimited else .failure

def attOkC5 : Nat → LLMOutcome := fun i => if i = 0 then .rateLimited else .success

def dpC6 : String → Except Unit (List OutputRecord) := fun u =>
  if u = "https://d.example/x" then .ok [⟨[("bio", some "Hi")]⟩] else .error ()

def recsC6 : List OutputRecord :=
  [⟨[("name", some "A")]⟩,
   ⟨[("name", some "B"), ("profile_url", some "https://bad.example/")]⟩,
   ⟨[("name", some "C"), ("profile_url", some "https://d.example/x")]⟩,
   ⟨[("name", some "D"), ("profile_url", some "")]⟩]

def r1C1 : OutputRecord := ⟨[("name", some "Acme Co"), ("phone", some "555-0100")]⟩

def r2C1 : OutputRecord := ⟨[("name", some "Solo")]⟩

/-- One page whose parse yields a duplicated two-field record and a unique
one-field record; no pagination. -/
def webDup : HttpxWeb := fun u =>
  if u = "https://site.example/" then some ⟨[r1C1, r1C1, r2C1], none⟩ else none

def runDup : ScrapeRun :=
  ⟨⟨"https://site.example/", [r1C1, r1C1, r2C1], 3⟩,
   ["https://site.example/"],
   ["https://site.example/", "https://site.example/"],
   ["https://site.example/"], 1⟩

/-- The same page served through the browser path. -/
def webBDup : BrowserWeb := fun u =>
  if u = "https://site.example/" then .ok [r1C1, r1C1, r2C1] none else .err

/-- A two-page pagination cycle: each page names the other as next. -/
def webCyc : HttpxWeb := fun u =>
  if u = "https://a.example/" then some ⟨[], some "https://a.example/p2"⟩
  else if u = "https://a.example/p2" then some ⟨[], some "https://a.example/"⟩
  else none

def runCyc : ScrapeRun :=
  ⟨⟨"https://a.example/", [], 0⟩,
   ["https://a.example/", "https://a.example/p2"],
   ["https://a.example/", "https://a.example/", "https://a.example/p2"],
   ["https://a.example/p2", "https://a.example/"], 2⟩

/-- A run whose second page fetch raises. -/
def webFail : HttpxWeb := fun u =>
  if u = "https://a.example/" then some ⟨[], some "https://a.example/bad"⟩ else none

def runFail : ScrapeRun :=
  ⟨⟨"https://a.example/", [], 0⟩,
   ["https://a.example/", "https://a.example/bad"],
   ["https://a.example/", "https://a.example/", "https://a.example/bad"],
   ["https://a.example/bad", "https://a.example/"], 1⟩

/-- A browser run whose second page fetch raises. -/
def webBFail : BrowserWeb := fun u =>
  if u = "https://a.example/" then .ok [] (some "https://a.example/bad") else .err

def runBFail : ScrapeRun :=
  ⟨⟨"https://a.example/", [], 0⟩,
   ["https://a.example/", "https://a.example/bad"],
   ["https://a.example/", "https://a.example/", "https://a.example/bad"],
   ["https://a.example/bad", "https://a.example/"], 1⟩

/-- A data row with one td cell. -/
def rowT : Dom := .elem "tr" [] [.elem "td" [] [.txt "data"]]

/-- A document holding a table of n one-cell data rows. -/
def bigTable (n : Nat) : Dom :=
  .elem "html" [] [.elem "table" [] (List.replicate n rowT)]

/-! # Theorems -/

/-! ## String-trimming helper lemmas -/

theorem head?_dropWhile_false {α : Type} (p : α → Bool) :
    ∀ (l : List α) (c : α), (l.dropWhile p).head? = some c → p c = false := by
  intro l
  induction l with
  | nil => intro c h; simp at h
  | cons a t ih =>
      intro c h
      by_cases hp : p a = true
      · rw [List.dropWhile_cons, if_pos hp] at h
        exact ih c h
      · rw [List.dropWhile_cons, if_neg hp] at h
        simp only [List.head?_cons, Option.some.injEq] at h
        subst h
        simpa using hp

theorem getLast?_dropWhile_ne_nil {α : Type} (p : α → Bool) :
    ∀ (l : List α), l.dropWhile p ≠ [] → (l.dropWhile p).getLast? = l.getLast? := by
  intro l
  induction l with
  | nil => intro h; simp at h
  | cons a t ih =>
      intro h
      by_cases hp : p a = true
      · rw [List.dropWhile_cons, if_pos hp] at h ⊢
        have ht : t ≠ [] := by
          intro he; subst he; simp at h
        rw [ih h]
        have : a :: t = [a] ++ t := rfl
        rw [this, List.getLast?_append_of_ne_nil _ ht]
      · rw [List.dropWhile_cons, if_neg hp]

theorem mem_of_head?_some {α : Type} {l : List α} {c : α} (h : l.head? = some c) : c ∈ l := by
  cases l with
  | nil => simp at h
  | cons a t =>
      simp only [List.head?_cons, Option.some.injEq] at h
      subst h
      exact List.mem_cons_self _ _

theorem mem_of_getLast?_some {α : Type} {l : List α} {c : α} (h : l.getLast? = some c) :
    c ∈ l := by
  have h2 : l.reverse.head? = some c := by rw [List.head?_reverse]; exact h
  have := mem_of_head?_some h2
  simpa using this

/-- A list with no Python whitespace at either edge is fixed by strip. -/
theorem pyStripL_fix (l : List Char)
    (h1 : ∀ c, l.head? = some c → isPySpace c = false)
    (h2 : ∀ c, l.getLast? = some c → isPySpace c = false) : pyStripL l = l := by
  unfold pyStripL
  have e1 : l.dropWhile isPySpace = l := by
    cases l with
    | nil => rfl
    | cons a t => rw [List.dropWhile_cons, if_neg (by simp [h1 a rfl])]
  rw [e1]
  have e2 : l.reverse.dropWhile isPySpace = l.reverse := by
    cases hr : l.reverse with
    | nil => rfl
    | cons a t =>
        have ha : l.getLast? = some a := by
          rw [← List.head?_reverse, hr]; rfl
        rw [List.dropWhile_cons, if_neg (by simp [h2 a ha])]
  rw [e2, List.reverse_reverse]

theorem pyStripL_head (l : List Char) :
    ∀ c, (pyStripL l).head? = some c → isPySpace c = false := by
  intro c h
  unfold pyStripL at h
  rw [List.head?_reverse] at h
  rcases hy : ((l.dropWhile isPySpace).reverse.dropWhile isPySpace) with _ | ⟨a, t⟩
  · rw [hy] at h; simp at h
  · rw [hy] at h
    have hne : (l.dropWhile isPySpace).reverse.dropWhile isPySpace ≠ [] := by
      rw [hy]; simp
    have := getLast?_dropWhile_ne_nil isPySpace (l.dropWhile isPySpace).reverse hne
    rw [hy] at this
    rw [this] at h
    rw [← List.head?_reverse, List.reverse_reverse] at h
    exact head?_dropWhile_false isPySpace l c h

theorem pyStripL_last (l : List Char) :
    ∀ c, (pyStripL l).getLast? = some c → isPySpace c = false := by
  intro c h
  unfold pyStripL at h
  rw [← List.head?_reverse, List.reverse_reverse] at h
  exact head?_dropWhile_false isPySpace _ c h

theorem pyStripL_idem (l : List Char) : pyStripL (pyStripL l) = pyStripL l :=
  pyStripL_fix _ (pyStripL_head l) (pyStripL_last l)

theorem pyStrip_pyStrip (s : String) : pyStrip (pyStrip s) = pyStrip s := by
  show String.mk (pyStripL (pyStripL s.toList)) = String.mk (pyStripL s.toList)
  rw [pyStripL_idem]

/-! ## Regex character lemmas -/

theorem take_le_takeWhile {p : Char → Bool} :
    ∀ (l : List Char) (n : Nat), n ≤ (l.takeWhile p).length →
      ∀ c ∈ l.take n, p c = true := by
  intro l
  induction l with
  | nil => intro n _ c hc; simp at hc
  | cons a t ih =>
      intro n hn c hc
      cases n with
      | zero => simp at hc
      | succ n2 =>
          rw [List.takeWhile_cons] at hn
          by_cases hpa : p a = true
          · rw [if_pos hpa] at hn
            simp only [List.length_cons, Nat.succ_le_succ_iff] at hn
            rw [List.take_succ_cons] at hc
            rcases List.mem_cons.mp hc with h | h
            · subst h; exact hpa
            · exact ih n2 hn c h
          · rw [if_neg hpa] at hn
            simp at hn

theorem matchRax_chars (Q : Char → Prop) :
    ∀ (toks : List Rax),
      (∀ tok ∈ toks, ∀ c : Char,
        (match tok with | .lit c0 => c = c0 | .plus p => p c = true) → Q c) →
      ∀ (l m : List Char), matchRax toks l = some m → ∀ c ∈ m, Q c := by
  intro toks
  induction toks with
  | nil =>
      intro _ l m h c hc
      simp only [matchRax, Option.some.injEq] at h
      subst h; simp at hc
  | cons tok ts ih =>
      intro hQ l m h c hc
      have hQts : ∀ tok2 ∈ ts, ∀ c : Char,
          (match tok2 with | .lit c0 => c = c0 | .plus p => p c = true) → Q c :=
        fun tok2 ht => hQ tok2 (List.mem_cons_of_mem _ ht)
      rcases tok with c0 | p
      · cases l with
        | nil => simp [matchRax] at h
        | cons x xs =>
            simp only [matchRax] at h
            by_cases hx : x = c0
            · rw [if_pos hx] at h
              rcases Option.map_eq_some'.mp h with ⟨m2, hm2, hmm⟩
              subst hmm
              rcases List.mem_cons.mp hc with hcx | hcm
              · subst hcx
                exact hQ (.lit c0) (List.mem_cons_self _ _) c hx
              · exact ih hQts xs m2 hm2 c hcm
            · rw [if_neg hx] at h; simp at h
      · simp only [matchRax] at h
        rcases List.exists_of_findSome?_eq_some h with ⟨i, _, hi⟩
        rcases Option.map_eq_some'.mp hi with ⟨r, hr, hmm⟩
        subst hmm
        rcases List.mem_append.mp hc with hcl | hcr
        · have hple : (l.takeWhile p).length - i ≤ (l.takeWhile p).length :=
            Nat.sub_le _ _
          have := take_le_takeWhile l ((l.takeWhile p).length - i) hple c hcl
          exact hQ (.plus p) (List.mem_cons_self _ _) c this
        · exact ih hQts _ r hr c hcr

theorem raxSearch_chars (Q : Char → Prop) (toks : List Rax)
    (hQ : ∀ tok ∈ toks, ∀ c : Char,
        (match tok with | .lit c0 => c = c0 | .plus p => p c = true) → Q c) :
    ∀ (l m : List Char), raxSearch toks l = some m → ∀ c ∈ m, Q c := by
  intro l
  induction l with
  | nil =>
      intro m h
      exact matchRax_chars Q toks hQ [] m h
  | cons x xs ih =>
      intro m h
      simp only [raxSearch] at h
      rcases hm : matchRax toks (x :: xs) with _ | m2
      · rw [hm] at h
        exact ih m h
      · rw [hm] at h
        simp only [Option.some.injEq] at h
        subst h
        exact matchRax_chars Q toks hQ (x :: xs) m2 hm

theorem wordChar_not_space : ∀ c, wordChar c = true → isPySpace c = false := by
  intro c h
  by_cases hs : isPySpace c = true
  · exfalso
    have h6 : c = ' ' ∨ c = '\t' ∨ c = '\n' ∨ c = '\x0d'
        ∨ c = Char.ofNat 11 ∨ c = Char.ofNat 12 := by
      simpa [isPySpace, or_assoc] using hs
    rcases h6 with h1 | h1 | h1 | h1 | h1 | h1 <;> subst h1 <;> revert h <;> decide
  · simpa using hs

theorem emailChar_not_space : ∀ c, emailChar c = true → isPySpace c = false := by
  intro c h
  simp only [emailChar, Bool.or_eq_true] at h
  rcases h with (h | h) | h
  · exact wordChar_not_space c h
  · simp only [decide_eq_true_eq] at h; subst h; decide
  · simp only [decide_eq_true_eq] at h; subst h; decide

theorem emailPat_no_space :
    ∀ (l m : List Char), raxSearch emailPat l = some m → ∀ c ∈ m, isPySpace c = false := by
  refine raxSearch_chars (fun c => isPySpace c = false) emailPat ?_
  intro tok htok c hcond
  simp only [emailPat, List.mem_cons, List.not_mem_nil, or_false] at htok
  rcases htok with h | h | h | h | h <;> subst h <;> simp only at hcond
  · exact emailChar_not_space c hcond
  · subst hcond; decide
  · exact emailChar_not_space c hcond
  · subst hcond; decide
  · exact wordChar_not_space c hcond

/-! ## Trimmedness of the normalizers -/

theorem cleanUrl_trim (x : String) : pyStrip (cleanUrl x) = cleanUrl x := by
  simp only [cleanUrl]
  split
  · rename_i hcond
    have hne : pyStripL x.toList ≠ [] := by
      intro he
      simp only [Bool.and_eq_true, decide_eq_true_eq] at hcond
      exact hcond.1 (by show String.mk (pyStripL x.toList) = ""; rw [he])
    show String.mk (pyStripL ("https://" ++ pyStrip x).toList) = "https://" ++ pyStrip x
    have e : ("https://" ++ pyStrip x).toList
        = ['h', 't', 't', 'p', 's', ':', '/', '/'] ++ pyStripL x.toList := rfl
    rw [e]
    have h1 : ∀ c, ((['h', 't', 't', 'p', 's', ':', '/', '/'] ++ pyStripL x.toList)).head?
        = some c → isPySpace c = false := by
      intro c h
      have eh : ((['h', 't', 't', 'p', 's', ':', '/', '/'] ++ pyStripL x.toList)).head?
          = some 'h' := rfl
      rw [eh] at h
      simp only [Option.some.injEq] at h
      subst h; decide
    have h2 : ∀ c, ((['h', 't', 't', 'p', 's', ':', '/', '/'] ++ pyStripL x.toList)).getLast?
        = some c → isPySpace c = false := by
      intro c h
      rw [List.getLast?_append_of_ne_nil _ hne] at h
      exact pyStripL_last _ c h
    rw [pyStripL_fix _ h1 h2]
    rfl
  · exact pyStrip_pyStrip x

theorem cleanEmail_strip_trim (x : String) :
    pyStrip (cleanEmail (pyStrip x)) = cleanEmail (pyStrip x) := by
  unfold cleanEmail
  rcases hr : raxSearch emailPat (pyStrip x).toList with _ | m
  · exact pyStrip_pyStrip x
  · show String.mk (pyStripL (String.mk m).toList) = String.mk m
    have : (String.mk m).toList = m := rfl
    rw [this, pyStripL_fix]
    · intro c h
      exact emailPat_no_space _ m hr c (mem_of_head?_some h)
    · intro c h
      exact emailPat_no_space _ m hr c (mem_of_getLast?_some h)

/-- C7: on record construction every string value is whitespace-trimmed;
a field name containing "email" narrows the value to the first email-pattern
match; a schemeless value in a field containing "url"/"link" is prefixed
with https:// — including the two round-trip examples of the spec. -/
theorem c7_record_normalization :
    cleanValue "email" (some "  JOHN@EXAMPLE.com  ") = some "JOHN@EXAMPLE.com"
  ∧ cleanValue "page_url" (some "example.org/x") = some "https://example.org/x"
  ∧ (∀ (k : String) (v : Option String) (s : String),
      cleanValue k v = some s → pyStrip s = s) := by
  refine ⟨by decide, by decide, ?_⟩
  intro k v s h
  rcases v with _ | s0
  · simp [cleanValue] at h
  · simp only [cleanValue, Option.some.injEq] at h
    by_cases hU : (strContains (lowerStr k) "url" || strContains (lowerStr k) "link") = true
    · rw [if_pos hU] at h
      subst h
      exact cleanUrl_trim _
    · rw [if_neg hU] at h
      by_cases hE : strContains (lowerStr k) "email" = true
      · rw [if_pos hE] at h
        subst h
        exact cleanEmail_strip_trim s0
      · rw [if_neg hE] at h
        subst h
        exact pyStrip_pyStrip s0

/-- Witness for C7 at the spec's round-trip input. -/
theorem c7_record_normalization_witness :
    pyStrip "JOHN@EXAMPLE.com" = "JOHN@EXAMPLE.com" :=
  c7_record_normalization.2.2 "email" (some "  JOHN@EXAMPLE.com  ")
    "JOHN@EXAMPLE.com" (by decide)

/-! ## Parser characterization lemmas -/

theorem extractLoop_eq_filterMap {Elem : Type} (sels : List (String × Option String))
    (ev : Elem → String → FieldVal) (uj : String → String) (e : Elem) :
    extractLoop sels ev uj e = sels.filterMap (fieldEntry ev uj e) := by
  have main : ∀ (ss : List (String × Option String)) (init : FieldData),
      ss.foldl (fun data fs =>
        match fieldEntry ev uj e fs with
        | some ent => data ++ [ent]
        | none => data) init
      = init ++ ss.filterMap (fieldEntry ev uj e) := by
    intro ss
    induction ss with
    | nil => intro init; simp
    | cons fs ss2 ih =>
        intro init
        rcases hf : fieldEntry ev uj e fs with _ | ent <;>
          simp [hf, ih, List.filterMap_cons]
  simpa [extractLoop] using main sels []

theorem parsePage_eq_filterMap {Elem : Type} (eng : PageEngine Elem) (sel : String)
    (sels : List (String × Option String)) (uj : String → String) :
    parsePage eng (some sel) sels uj
      = (eng.css sel).filterMap (fun item =>
          let rd := extractFromElement sels eng.ev uj item
          if rd = [] then none else some (mkOutputRecord rd)) := by
  simp only [parsePage]
  induction eng.css sel with
  | nil => simp
  | cons item items ih =>
      simp only [List.foldr_cons, List.filterMap_cons]
      by_cases hrd : extractFromElement sels eng.ev uj item = []
      · simp [hrd, ih]
      · simp [hrd, ih]

theorem fieldEntry_key {Elem : Type} (ev : Elem → String → FieldVal)
    (uj : String → String) (e : Elem) (fs : String × Option String)
    (ent : String × Option String) (h : fieldEntry ev uj e fs = some ent) :
    ent.1 = fs.1 := by
  rcases fs with ⟨g, so⟩
  simp only [fieldEntry] at h
  split at h
  · simp only [Option.some.injEq] at h
    rw [← h]
  · split at h
    · simp only [Option.some.injEq] at h
      rw [← h]
    · simp at h
    · split at h
      · simp only [Option.some.injEq] at h
        rw [← h]
      · simp at h

theorem lookup_filterMap_fault {Elem : Type} (ev : Elem → String → FieldVal)
    (uj : String → String) (e : Elem) (f : String) (sf : String) :
    ∀ (sels : List (String × Option String)),
      (f, some sf) ∈ sels → (sels.map Prod.fst).Nodup → ev e sf = .fault →
      List.lookup f (sels.filterMap (fieldEntry ev uj e)) = some none := by
  intro sels
  induction sels with
  | nil => intro hmem; simp at hmem
  | cons gs rest ih =>
      intro hmem hnodup hf
      rcases gs with ⟨g, so⟩
      simp only [List.map_cons, List.nodup_cons] at hnodup
      by_cases hfg : f = g
      · subst hfg
        have hso : so = some sf := by
          rcases List.mem_cons.mp hmem with h | h
          · have := Prod.mk.injEq f (some sf) f so ▸ h
            simp at this
            exact this.symm
          · exfalso
            exact hnodup.1 (List.mem_map.mpr ⟨(f, some sf), h, rfl⟩)
        subst hso
        have he : fieldEntry ev uj e (f, some sf) = some (f, none) := by
          simp [fieldEntry, hf]
        rw [List.filterMap_cons, he]
        simp [List.lookup]
      · have hmem2 : (f, some sf) ∈ rest := by
          rcases List.mem_cons.mp hmem with h | h
          · exfalso
            apply hfg
            have := Prod.mk.injEq f (some sf) g so ▸ h
            simp at this
            exact this.1
          · exact h
        rw [List.filterMap_cons]
        rcases hfe : fieldEntry ev uj e (g, so) with _ | ent
        · exact ih hmem2 hnodup.2 hf
        · have hkey : ent.1 = g := fieldEntry_key ev uj e (g, so) ent hfe
          rcases ent with ⟨k1, v1⟩
          have hbeq : (f == k1) = false := by
            simp only at hkey
            rw [hkey]
            exact beq_eq_false_iff_ne.mpr hfg
          simp only [List.lookup, hbeq]
          exact ih hmem2 hnodup.2 hf

/-- C4: a selector-evaluation fault for a field stores None for exactly that
field, every field's entry is a function of its own evaluation alone (the
loop is a per-field filterMap, so a fault never disturbs the other fields),
and page extraction is a per-element filterMap, so a fault never aborts the
remaining records. -/
theorem c4_fault_becomes_null :
    ∀ (Elem : Type) (sels : List (String × Option String))
      (ev : Elem → String → FieldVal) (uj : String → String) (e : Elem)
      (f sf : String),
      (f, some sf) ∈ sels → (sels.map Prod.fst).Nodup → ev e sf = .fault →
        List.lookup f (extractLoop sels ev uj e) = some none
      ∧ extractLoop sels ev uj e = sels.filterMap (fieldEntry ev uj e)
      ∧ (∀ (eng : PageEngine Elem) (sel : String),
          parsePage eng (some sel) sels uj
            = (eng.css sel).filterMap (fun item =>
                let rd := extractFromElement sels eng.ev uj item
                if rd = [] then none else some (mkOutputRecord rd))) := by
  intro Elem sels ev uj e f sf hmem hnodup hf
  refine ⟨?_, extractLoop_eq_filterMap sels ev uj e, ?_⟩
  · rw [extractLoop_eq_filterMap]
    exact lookup_filterMap_fault ev uj e f sf sels hmem hnodup hf
  · intro eng sel
    exact parsePage_eq_filterMap eng sel sels uj

/-- Witness for C4: a two-field schema where the email selector raises. -/
theorem c4_fault_becomes_null_witness :
    List.lookup "email"
        (extractLoop [("name", some "h3"), ("email", some ".mail")] evC4 id ())
      = some none :=
  (c4_fault_becomes_null Unit [("name", some "h3"), ("email", some ".mail")]
    evC4 id () "email" ".mail" (by decide) (by decide) (by decide)).1

/-- C3 counterexample: with 5 boundary matches, only 3 of which contain a
name-matching descendant, and name the only requested field, parse_page
yields 3 records — not the claimed 5: the two elements whose extracted data
is empty are dropped by the `if record_data:` / `return data if
any(data.values()) else {}` pair. -/
theorem c3_counterexample :
    (engC3.css ".card").length = 5
  ∧ (parsePage engC3 (some ".card") [("name", some "h3")] id).length = 3
  ∧ ¬ (parsePage engC3 (some ".card") [("name", some "h3")] id).length = 5 := by
  refine ⟨rfl, by decide, by decide⟩

/-- C3 amended: an element yields a record exactly when some field extracts
a truthy value; a name-less boundary element still yields a record (with the
name field absent, read as null) whenever another field is populated — with
a second populated field the 5/3 scenario yields exactly 5 records, 2 with a
null name, and extraction is a per-element filterMap, so no record is
dropped for the name's absence alone. -/
theorem c3_field_absence :
    (engC3b.css ".card").length = 5
  ∧ (parsePage engC3b (some ".card")
      [("name", some "h3"), ("phone", some ".tel")] id).length = 5
  ∧ ((parsePage engC3b (some ".card")
      [("name", some "h3"), ("phone", some ".tel")] id).filter
        (fun r => (List.lookup "name" r.data).isNone)).length = 2
  ∧ ((parsePage engC3b (some ".card")
      [("name", some "h3"), ("phone", some ".tel")] id).filter
        (fun r => (List.lookup "name" r.data).isNone))
      = [⟨[("phone", some "555-0100")]⟩, ⟨[("phone", some "555-0100")]⟩]
  ∧ (∀ (Elem : Type) (eng : PageEngine Elem) (sel : String)
       (sels : List (String × Option String)) (uj : String → String),
        parsePage eng (some sel) sels uj
          = (eng.css sel).filterMap (fun item =>
              let rd := extractFromElement sels eng.ev uj item
              if rd = [] then none else some (mkOutputRecord rd))) := by
  refine ⟨rfl, by decide, by decide, by decide, ?_⟩
  intro Elem eng sel sels uj
  exact parsePage_eq_filterMap eng sel sels uj

/-! ## Dict-merge lookup lemmas -/

theorem lookup_append_fd (k : String) (A B : FieldData) :
    List.lookup k (A ++ B)
      = match List.lookup k A with
        | some v => some v
        | none => List.lookup k B := by
  induction A with
  | nil => simp
  | cons kv rest ih =>
      rcases kv with ⟨k1, v1⟩
      by_cases hk : (k == k1) = true
      · simp [List.lookup, hk]
      · simp only [Bool.not_eq_true] at hk
        simp [List.lookup, hk, ih]

theorem lookup_map_value (k : String) (F : String → Option String → Option String) :
    ∀ (o : FieldData),
      List.lookup k (o.map (fun kv => (kv.1, F kv.1 kv.2)))
        = (List.lookup k o).map (F k) := by
  intro o
  induction o with
  | nil => simp
  | cons kv rest ih =>
      rcases kv with ⟨k1, v1⟩
      by_cases hk : (k == k1) = true
      · have : k = k1 := eq_of_beq hk
        subst this
        simp [List.lookup, List.map_cons]
      · simp only [Bool.not_eq_true] at hk
        simp [List.lookup, List.map_cons, hk, ih]

theorem lookup_none_iff (k : String) :
    ∀ (l : FieldData), List.lookup k l = none ↔ k ∉ l.map Prod.fst := by
  intro l
  induction l with
  | nil => simp
  | cons kv rest ih =>
      rcases kv with ⟨k1, v1⟩
      by_cases hk : (k == k1) = true
      · have : k = k1 := eq_of_beq hk
        subst this
        simp [List.lookup]
      · have hne : k ≠ k1 := by
          intro he; subst he; simp at hk
        simp [List.lookup, hk, ih, hne]

theorem lookup_filter_of_key (k : String) (g : String × Option String → Bool) :
    ∀ (d : FieldData), (∀ v, g (k, v) = true) →
      List.lookup k (d.filter g) = List.lookup k d := by
  intro d hg
  induction d with
  | nil => simp
  | cons kv rest ih =>
      rcases kv with ⟨k1, v1⟩
      by_cases hk : (k == k1) = true
      · have : k = k1 := eq_of_beq hk
        subst this
        rw [List.filter_cons, if_pos (hg v1)]
        simp [List.lookup]
      · rw [List.filter_cons]
        by_cases hgk : g (k1, v1) = true
        · rw [if_pos hgk]
          simp [List.lookup, hk, ih]
        · rw [if_neg hgk]
          simp [List.lookup, hk, ih]

theorem lookup_filter_none (k : String) (g : String × Option String → Bool)
    (d : FieldData) (hnone : List.lookup k d = none) :
    List.lookup k (d.filter g) = none := by
  rw [lookup_none_iff] at hnone ⊢
  intro hmem
  apply hnone
  rcases List.mem_map.mp hmem with ⟨kv, hkv, hfst⟩
  exact List.mem_map.mpr ⟨kv, (List.mem_filter.mp hkv).1, hfst⟩

/-- C2 amended: the merge is the plain dict overlay {**orig, **detail} — the
detail record's value wins for every key present in the detail data,
including an explicit None recorded for a faulted detail field; only keys
absent from the detail data keep the original's value.  The merged dict is
rebuilt through the OutputRecord validator. -/
theorem c2_merge_overlay :
    (∀ (o d : FieldData) (k : String),
        (k ∈ fieldKeys d → List.lookup k (dictMerge o d) = List.lookup k d)
      ∧ (k ∉ fieldKeys d → List.lookup k (dictMerge o d) = List.lookup k o))
  ∧ (∀ (dp : String → Except Unit (List OutputRecord)) (f : String)
       (r drec : OutputRecord) (rest : List OutputRecord) (u : String),
        dataGet r.data f = some u → u ≠ "" → dp u = .ok (drec :: rest) →
        enrichSingle dp f r = .ok (mkOutputRecord (dictMerge r.data drec.data))) := by
  constructor
  · intro o d k
    constructor
    · intro hmem
      have hvd : ∃ v, List.lookup k d = some v := by
        rcases ho : List.lookup k d with _ | v
        · exact absurd ((lookup_none_iff k d).mp ho) (by simpa [fieldKeys] using hmem)
        · exact ⟨v, rfl⟩
      rcases hvd with ⟨v, hv⟩
      rw [dictMerge, lookup_append_fd,
        lookup_map_value k (fun k2 v2 =>
          match List.lookup k2 d with | some w => w | none => v2) o]
      rcases ho : List.lookup k o with _ | w
      · simp only [Option.map_none']
        have hko : k ∉ fieldKeys o := by
          have := (lookup_none_iff k o).mp ho
          simpa [fieldKeys] using this
        show List.lookup k (List.filter (fun kv => !(fieldKeys o).contains kv.1) d)
            = List.lookup k d
        apply lookup_filter_of_key
        intro v2
        simpa using hko
      · simp only [Option.map_some', hv]
    · intro hnmem
      have hd : List.lookup k d = none :=
        (lookup_none_iff k d).mpr (by simpa [fieldKeys] using hnmem)
      rw [dictMerge, lookup_append_fd,
        lookup_map_value k (fun k2 v2 =>
          match List.lookup k2 d with | some w => w | none => v2) o]
      rcases ho : List.lookup k o with _ | w
      · simp only [Option.map_none']
        exact lookup_filter_none k _ d hd
      · simp only [Option.map_some', hd]
  · intro dp f r drec rest u h1 h2 h3
    simp [enrichSingle, h1, h2, h3]

/-- Witness for C2's amended theorem at the concrete fixture. -/
theorem c2_merge_overlay_witness :
    enrichSingle dpC2 "profile_url" origC2
      = .ok (mkOutputRecord (dictMerge origC2.data detailC2.data)) :=
  c2_merge_overlay.2 dpC2 "profile_url" origC2 detailC2 [] "https://example.com/ada"
    (by decide) (by decide) rfl

/-- C2 counterexample: the detail record carries email = None (its selector
faulted); {**orig, **detail} overwrites the original's non-null email with
None, contrary to the claim that a null detail field never replaces a
non-null original field. -/
theorem c2_counterexample :
    enrichSingle dpC2 "profile_url" origC2
      = .ok ⟨[("name", some "Ada Lovelace"), ("email", none),
              ("profile_url", some "https://example.com/ada"),
              ("bio", some "Mathematician")]⟩
  ∧ dataGet origC2.data "email" = some "ada@example.com"
  ∧ dataGet detailC2.data "email" = none
  ∧ List.lookup "email" (dictMerge origC2.data detailC2.data) = some none
  ∧ (some none : Option (Option String)) ≠ some (some "ada@example.com") := by
  refine ⟨rfl, by decide, by decide, by decide, by decide⟩

/-- C6: enrich_records maps each record through its own enrichment
independently (batching in max_concurrent chunks preserves length, order
and position); a record with a falsy detail-URL value passes through
unchanged, and a record whose detail-page chain raises is kept unchanged at
its position. -/
theorem c6_enrich_order_preserved :
    ∀ (dp : String → Except Unit (List OutputRecord)) (f : String),
      (∀ (mc : Nat) (records : List OutputRecord), 0 < mc →
          enrichRecords dp f mc records = records.map (enrichPass dp f)
        ∧ (enrichRecords dp f mc records).length = records.length)
    ∧ (∀ r : OutputRecord, dataGet r.data f = none ∨ dataGet r.data f = some "" →
        enrichPass dp f r = r)
    ∧ (∀ (r : OutputRecord) (u : String),
        dataGet r.data f = some u → u ≠ "" → dp u = .error () →
        enrichPass dp f r = r) := by
  intro dp f
  have hmap : ∀ (mc : Nat), 0 < mc → ∀ (n : Nat) (rs : List OutputRecord),
      rs.length ≤ n → enrichRecords dp f mc rs = rs.map (enrichPass dp f) := by
    intro mc hmc n
    induction n with
    | zero =>
        intro rs hle
        have : rs = [] := List.length_eq_zero.mp (Nat.le_zero.mp hle)
        subst this
        rw [enrichRecords]
        simp
    | succ n2 ih =>
        intro rs hle
        rw [enrichRecords]
        by_cases hz : mc = 0 ∨ rs = []
        · rw [dif_pos hz]
          rcases hz with hz | hz
          · omega
          · subst hz; simp
        · rw [dif_neg hz]
          push_neg at hz
          have hpos : 0 < rs.length := List.length_pos.mpr hz.2
          have hdrop : (rs.drop mc).length ≤ n2 := by
            simp only [List.length_drop]
            omega
          rw [ih _ hdrop, ← List.map_append, List.take_append_drop]
  refine ⟨?_, ?_, ?_⟩
  · intro mc records hmc
    have h1 := hmap mc hmc records.length records (Nat.le_refl _)
    exact ⟨h1, by rw [h1, List.length_map]⟩
  · intro r hr
    rcases hr with hr | hr <;> simp [enrichPass, enrichSingle, hr]
  · intro r u h1 h2 h3
    simp [enrichPass, enrichSingle, h1, h2, h3]

/-- Witness for C6 at a four-record batch containing a URL-less record, a
record whose detail fetch raises, a successfully enriched record, and an
empty-string URL record. -/
theorem c6_enrich_order_preserved_witness :
    (enrichRecords dpC6 "profile_url" 3 recsC6
        = recsC6.map (enrichPass dpC6 "profile_url")
      ∧ (enrichRecords dpC6 "profile_url" 3 recsC6).length = recsC6.length)
  ∧ enrichPass dpC6 "profile_url" ⟨[("name", some "A")]⟩ = ⟨[("name", some "A")]⟩
  ∧ enrichPass dpC6 "profile_url"
      ⟨[("name", some "B"), ("profile_url", some "https://bad.example/")]⟩
      = ⟨[("name", some "B"), ("profile_url", some "https://bad.example/")]⟩ :=
  ⟨(c6_enrich_order_preserved dpC6 "profile_url").1 3 recsC6 (by decide),
   (c6_enrich_order_preserved dpC6 "profile_url").2.1 ⟨[("name", some "A")]⟩
     (Or.inl (by decide)),
   (c6_enrich_order_preserved dpC6 "profile_url").2.2
     ⟨[("name", some "B"), ("profile_url", some "https://bad.example/")]⟩
     "https://bad.example/" (by decide) (by decide) rfl⟩

/-! ## Retry-loop lemmas -/

theorem retryGo_calls_le (att : Nat → LLMOutcome) (mr bd : Nat) :
    ∀ (a : Nat), (retryGo att mr bd a).calls ≤ mr - a := by
  have main : ∀ (n a : Nat), mr - a ≤ n → (retryGo att mr bd a).calls ≤ mr - a := by
    intro n
    induction n with
    | zero =>
        intro a hle
        rw [retryGo, dif_neg (by omega)]
        exact Nat.zero_le _
    | succ n2 ih =>
        intro a hle
        rw [retryGo]
        by_cases hlt : a < mr
        · rw [dif_pos hlt]
          rcases hatt : att a with _ | _ | _ <;> simp only [hatt]
          · show (1 : Nat) ≤ mr - a
            omega
          · by_cases hlast : a < mr - 1
            · rw [if_pos hlast]
              have := ih (a + 1) (by omega)
              show (retryGo att mr bd (a + 1)).calls + 1 ≤ mr - a
              omega
            · rw [if_neg hlast]
              show (1 : Nat) ≤ mr - a
              omega
          · show (1 : Nat) ≤ mr - a
            omega
        · rw [dif_neg hlt]
          exact Nat.zero_le _
  intro a
  exact main (mr - a) a (Nat.le_refl _)

theorem retryGo_calls_pos (att : Nat → LLMOutcome) (mr bd : Nat) (a : Nat)
    (h : a < mr) : 1 ≤ (retryGo att mr bd a).calls := by
  rw [retryGo, dif_pos h]
  rcases hatt : att a with _ | _ | _ <;> simp only [hatt]
  · exact Nat.le_refl _
  · by_cases hlast : a < mr - 1
    · rw [if_pos hlast]
      show 1 ≤ (retryGo att mr bd (a + 1)).calls + 1
      omega
    · rw [if_neg hlast]
  · exact Nat.le_refl _

theorem retryGo_delays (att : Nat → LLMOutcome) (mr bd : Nat) :
    ∀ (a : Nat), a < mr →
      (retryGo att mr bd a).delays
        = (List.range ((retryGo att mr bd a).calls - 1)).map
            (fun i => bd * 2 ^ (a + i)) := by
  have main : ∀ (n a : Nat), mr - a ≤ n → a < mr →
      (retryGo att mr bd a).delays
        = (List.range ((retryGo att mr bd a).calls - 1)).map
            (fun i => bd * 2 ^ (a + i)) := by
    intro n
    induction n with
    | zero => intro a hle hl; omega
    | succ n2 ih =>
        intro a hle hl
        rw [retryGo, dif_pos hl]
        rcases hatt : att a with _ | _ | _ <;> simp only [hatt]
        · simp
        · by_cases hlast : a < mr - 1
          · rw [if_pos hlast]
            have hrec := ih (a + 1) (by omega) (by omega)
            have hpos := retryGo_calls_pos att mr bd (a + 1) (by omega)
            show bd * 2 ^ a :: (retryGo att mr bd (a + 1)).delays
              = (List.range ((retryGo att mr bd (a + 1)).calls + 1 - 1)).map
                  (fun i => bd * 2 ^ (a + i))
            rw [hrec]
            have hc : (retryGo att mr bd (a + 1)).calls + 1 - 1
                = ((retryGo att mr bd (a + 1)).calls - 1) + 1 := by omega
            rw [hc, List.range_succ_eq_map]
            simp only [List.map_cons, Nat.add_zero, List.map_map]
            congr 1
            apply List.map_congr_left
            intro i _
            simp only [Function.comp_apply]
            have he : a + Nat.succ i = a + 1 + i := by omega
            rw [he]
          · rw [if_neg hlast]
            simp
        · simp
  intro a hl
  exact main (mr - a) a (Nat.le_refl _) hl

theorem retryGo_all_rate (att : Nat → LLMOutcome) (mr bd : Nat)
    (hrate : ∀ i, i < mr → att i = .rateLimited) :
    ∀ (a : Nat), a < mr →
      (retryGo att mr bd a).calls = mr - a
        ∧ (retryGo att mr bd a).outcome = .error .rateLimit := by
  have main : ∀ (n a : Nat), mr - a ≤ n → a < mr →
      (retryGo att mr bd a).calls = mr - a
        ∧ (retryGo att mr bd a).outcome = .error .rateLimit := by
    intro n
    induction n with
    | zero => intro a hle hl; omega
    | succ n2 ih =>
        intro a hle hl
        rw [retryGo, dif_pos hl, hrate a hl]
        by_cases hlast : a < mr - 1
        · rw [if_pos hlast]
          have hrec := ih (a + 1) (by omega) (by omega)
          refine ⟨?_, hrec.2⟩
          show (retryGo att mr bd (a + 1)).calls + 1 = mr - a
          omega
        · rw [if_neg hlast]
          exact ⟨by show (1 : Nat) = mr - a; omega, rfl⟩
  intro a hl
  exact main (mr - a) a (Nat.le_refl _) hl

theorem retryGo_first_stop (att : Nat → LLMOutcome) (mr bd : Nat) :
    ∀ (j a : Nat), a ≤ j → j < mr →
      (∀ i, a ≤ i → i < j → att i = .rateLimited) →
      ((att j = .failure →
          (retryGo att mr bd a).calls = j + 1 - a
            ∧ (retryGo att mr bd a).outcome = .error .fatal)
        ∧ (att j = .success →
          (retryGo att mr bd a).calls = j + 1 - a
            ∧ (retryGo att mr bd a).outcome = .ok ())) := by
  have main : ∀ (n j a : Nat), j - a ≤ n → a ≤ j → j < mr →
      (∀ i, a ≤ i → i < j → att i = .rateLimited) →
      ((att j = .failure →
          (retryGo att mr bd a).calls = j + 1 - a
            ∧ (retryGo att mr bd a).outcome = .error .fatal)
        ∧ (att j = .success →
          (retryGo att mr bd a).calls = j + 1 - a
            ∧ (retryGo att mr bd a).outcome = .ok ())) := by
    intro n
    induction n with
    | zero =>
        intro j a hle haj hj _
        have heq : a = j := by omega
        subst heq
        constructor
        · intro hfail
          rw [retryGo, dif_pos hj, hfail]
          exact ⟨by show (1 : Nat) = a + 1 - a; omega, rfl⟩
        · intro hsucc
          rw [retryGo, dif_pos hj, hsucc]
          exact ⟨by show (1 : Nat) = a + 1 - a; omega, rfl⟩
    | succ n2 ih =>
        intro j a hle haj hj hrate
        by_cases heq : a = j
        · subst heq
          constructor
          · intro hfail
            rw [retryGo, dif_pos hj, hfail]
            exact ⟨by show (1 : Nat) = a + 1 - a; omega, rfl⟩
          · intro hsucc
            rw [retryGo, dif_pos hj, hsucc]
            exact ⟨by show (1 : Nat) = a + 1 - a; omega, rfl⟩
        · have haj2 : a < j := by omega
          have hra : att a = .rateLimited := hrate a (Nat.le_refl _) haj2
          have hlast : a < mr - 1 := by omega
          have hrec := ih j (a + 1) (by omega) (by omega) hj
            (fun i h1 h2 => hrate i (by omega) h2)
          rw [retryGo, dif_pos (by omega : a < mr), hra, if_pos hlast]
          constructor
          · intro hfail
            have hx := hrec.1 hfail
            refine ⟨?_, hx.2⟩
            show (retryGo att mr bd (a + 1)).calls + 1 = j + 1 - a
            omega
          · intro hsucc
            have hx := hrec.2 hsucc
            refine ⟨?_, hx.2⟩
            show (retryGo att mr bd (a + 1)).calls + 1 = j + 1 - a
            omega
  intro j a haj hj hrate
  exact main (j - a) j a (Nat.le_refl _) haj hj hrate

/-- C5: the inference retry loop makes at most 5 requests; the sleeps
performed are the doubling sequence 2·2^i; a non-rate-limit failure at
attempt j (after j rate limits) stops after j+1 requests with the fatal
error re-raised and no retry; five consecutive rate limits make exactly 5
requests, sleep 2, 4, 8, 16, and re-raise the rate-limit error. -/
theorem c5_retry_policy :
    ∀ (att : Nat → LLMOutcome),
      (inferSelectorsRetry att).calls ≤ 5
    ∧ (inferSelectorsRetry att).delays
        = (List.range ((inferSelectorsRetry att).calls - 1)).map (fun i => 2 * 2 ^ i)
    ∧ ((∀ i, i < 5 → att i = .rateLimited) →
        (inferSelectorsRetry att).calls = 5
          ∧ (inferSelectorsRetry att).delays = [2, 4, 8, 16]
          ∧ (inferSelectorsRetry att).outcome = .error .rateLimit)
    ∧ (∀ j, j < 5 → att j = .failure → (∀ i, i < j → att i = .rateLimited) →
        (inferSelectorsRetry att).calls = j + 1
          ∧ (inferSelectorsRetry att).outcome = .error .fatal)
    ∧ (∀ j, j < 5 → att j = .success → (∀ i, i < j → att i = .rateLimited) →
        (inferSelectorsRetry att).calls = j + 1
          ∧ (inferSelectorsRetry att).outcome = .ok ()) := by
  intro att
  refine ⟨?_, ?_, ?_, ?_, ?_⟩
  · have := retryGo_calls_le att 5 2 0
    simpa [inferSelectorsRetry] using this
  · have hd := retryGo_delays att 5 2 0 (by omega)
    simp only [inferSelectorsRetry] at *
    rw [hd]
    apply List.map_congr_left
    intro i _
    rw [Nat.zero_add]
  · intro hrate
    have h1 := retryGo_all_rate att 5 2 hrate 0 (by omega)
    have h2 := retryGo_delays att 5 2 0 (by omega)
    simp only [inferSelectorsRetry] at *
    refine ⟨h1.1, ?_, h1.2⟩
    rw [h2, h1.1]
    decide
  · intro j hj hfail hrate
    have hx := (retryGo_first_stop att 5 2 j 0 (by omega) hj
      (fun i _ h2 => hrate i h2)).1 hfail
    simp only [inferSelectorsRetry]
    exact ⟨by rw [hx.1]; omega, hx.2⟩
  · intro j hj hsucc hrate
    have hx := (retryGo_first_stop att 5 2 j 0 (by omega) hj
      (fun i _ h2 => hrate i h2)).2 hsucc
    simp only [inferSelectorsRetry]
    exact ⟨by rw [hx.1]; omega, hx.2⟩

/-- Witness for C5: all-rate-limited, fail-at-third, succeed-at-second
attempt schedules. -/
theorem c5_retry_policy_witness :
    ((inferSelectorsRetry attRateC5).calls = 5
      ∧ (inferSelectorsRetry attRateC5).delays = [2, 4, 8, 16]
      ∧ (inferSelectorsRetry attRateC5).outcome = .error .rateLimit)
  ∧ ((inferSelectorsRetry attFailC5).calls = 3
      ∧ (inferSelectorsRetry attFailC5).outcome = .error .fatal)
  ∧ ((inferSelectorsRetry attOkC5).calls = 2
      ∧ (inferSelectorsRetry attOkC5).outcome = .ok ()) :=
  ⟨(c5_retry_policy attRateC5).2.2.1 (by decide),
   (c5_retry_policy attFailC5).2.2.2.1 2 (by decide) (by decide) (by decide),
   (c5_retry_policy attOkC5).2.2.2.2 1 (by decide) (by decide) (by decide)⟩

/-! ## Crawl-loop invariants -/

theorem enqueueNext_log (st : CrawlState) (o : Option String) :
    (enqueueNext st o).log = st.log := by
  cases o with
  | none => rfl
  | some nu =>
      simp only [enqueueNext]
      split <;> rfl

theorem enqueueNext_pageCount (st : CrawlState) (o : Option String) :
    (enqueueNext st o).pageCount = st.pageCount := by
  cases o with
  | none => rfl
  | some nu =>
      simp only [enqueueNext]
      split <;> rfl

theorem enqueueNext_visited_mono (st : CrawlState) (o : Option String) :
    ∀ v ∈ st.visited, v ∈ (enqueueNext st o).visited := by
  intro v hv
  cases o with
  | none => exact hv
  | some nu =>
      simp only [enqueueNext]
      split
      · exact List.mem_cons_of_mem _ hv
      · exact hv

theorem enqueueNext_nodup_mem (st : CrawlState) (o : Option String)
    (h1 : (st.log ++ st.queue).Nodup)
    (h2 : ∀ v ∈ st.log ++ st.queue, v ∈ st.visited) :
    ((enqueueNext st o).log ++ (enqueueNext st o).queue).Nodup
  ∧ (∀ v ∈ (enqueueNext st o).log ++ (enqueueNext st o).queue,
      v ∈ (enqueueNext st o).visited) := by
  cases o with
  | none => exact ⟨h1, h2⟩
  | some nu =>
      simp only [enqueueNext]
      split
      · rename_i hc
        have hnmem : nu ∉ st.log ++ st.queue := fun hmem => hc.2 (h2 nu hmem)
        constructor
        · show (st.log ++ (st.queue ++ [nu])).Nodup
          rw [← List.append_assoc]
          refine List.Nodup.append h1 (List.nodup_singleton nu) ?_
          intro x hx hx2
          simp at hx2
          subst hx2
          exact hnmem hx
        · intro v hv
          show v ∈ nu :: st.visited
          rcases List.mem_append.mp hv with hv | hv
          · exact List.mem_cons_of_mem _ (h2 v (List.mem_append.mpr (Or.inl hv)))
          · rcases List.mem_append.mp hv with hv | hv
            · exact List.mem_cons_of_mem _ (h2 v (List.mem_append.mpr (Or.inr hv)))
            · simp at hv
              subst hv
              exact List.mem_cons_self _ _
      · exact ⟨h1, h2⟩

theorem httpxStep_eq_none (web : HttpxWeb) (s : CrawlState) (u : String)
    (hw : web u = none) : httpxStep web s u = s := by
  unfold httpxStep
  rw [hw]

theorem httpxStep_eq_some (web : HttpxWeb) (s : CrawlState) (u : String)
    (p : FetchedPage) (hw : web u = some p) :
    httpxStep web s u = httpxStepSome s p := by
  unfold httpxStep httpxStepSome fetchedState
  rw [hw]

theorem httpxStep_inv (web : HttpxWeb) (s : CrawlState) (u : String)
    (h1 : (s.log ++ s.queue).Nodup)
    (h2 : ∀ v ∈ s.log ++ s.queue, v ∈ s.visited) :
    (httpxStep web s u).log = s.log
  ∧ ((httpxStep web s u).log ++ (httpxStep web s u).queue).Nodup
  ∧ (∀ v ∈ (httpxStep web s u).log ++ (httpxStep web s u).queue,
      v ∈ (httpxStep web s u).visited)
  ∧ (∀ v ∈ s.visited, v ∈ (httpxStep web s u).visited)
  ∧ (httpxStep web s u).pageCount
      = s.pageCount + (if (web u).isSome then 1 else 0) := by
  rcases hw : web u with _ | p
  · rw [httpxStep_eq_none web s u hw]
    refine ⟨rfl, h1, h2, fun v hv => hv, ?_⟩
    simp
  · rw [httpxStep_eq_some web s u p hw]
    refine ⟨?_, ?_, ?_, ?_, ?_⟩
    · exact enqueueNext_log (fetchedState s p) p.nextUrl
    · exact (enqueueNext_nodup_mem (fetchedState s p) p.nextUrl h1 h2).1
    · exact (enqueueNext_nodup_mem (fetchedState s p) p.nextUrl h1 h2).2
    · intro v hv
      exact enqueueNext_visited_mono (fetchedState s p) p.nextUrl v hv
    · show (enqueueNext (fetchedState s p) p.nextUrl).pageCount + 1
          = s.pageCount + 1
      rw [enqueueNext_pageCount]
      rfl

theorem processResults_inv (web : HttpxWeb) :
    ∀ (b : List String) (s0 : CrawlState),
      (s0.log ++ s0.queue).Nodup →
      (∀ v ∈ s0.log ++ s0.queue, v ∈ s0.visited) →
      (processResults web b s0).log = s0.log
    ∧ ((processResults web b s0).log ++ (processResults web b s0).queue).Nodup
    ∧ (∀ v ∈ (processResults web b s0).log ++ (processResults web b s0).queue,
        v ∈ (processResults web b s0).visited)
    ∧ (∀ v ∈ s0.visited, v ∈ (processResults web b s0).visited)
    ∧ (processResults web b s0).pageCount
        = s0.pageCount + b.countP (fun v => (web v).isSome) := by
  intro b
  induction b with
  | nil =>
      intro s0 h1 h2
      exact ⟨rfl, h1, h2, fun v hv => hv, by simp [processResults]⟩
  | cons x xs ih =>
      intro s0 h1 h2
      have hstep := httpxStep_inv web s0 x h1 h2
      have hfold : processResults web (x :: xs) s0
          = processResults web xs (httpxStep web s0 x) := rfl
      have hrec := ih (httpxStep web s0 x) hstep.2.1 hstep.2.2.1
      rw [hfold]
      refine ⟨hrec.1.trans hstep.1, hrec.2.1, hrec.2.2.1, ?_, ?_⟩
      · intro v hv
        exact hrec.2.2.2.1 v (hstep.2.2.2.1 v hv)
      · rw [hrec.2.2.2.2, hstep.2.2.2.2, List.countP_cons]
        by_cases hwx : (web x).isSome <;> simp [hwx] <;> omega

theorem scrapeLoop_inv (web : HttpxWeb) (maxPages maxConc : Nat) (hmc : 0 < maxConc) :
    ∀ (st : CrawlState),
      (st.log ++ st.queue).Nodup →
      (∀ v ∈ st.log ++ st.queue, v ∈ st.visited) →
      st.pageCount = st.log.countP (fun v => (web v).isSome) →
        (scrapeLoop web maxPages maxConc hmc st).log.Nodup
      ∧ (∀ v ∈ (scrapeLoop web maxPages maxConc hmc st).log,
          v ∈ (scrapeLoop web maxPages maxConc hmc st).visited)
      ∧ (scrapeLoop web maxPages maxConc hmc st).pageCount
          = (scrapeLoop web maxPages maxConc hmc st).log.countP
              (fun v => (web v).isSome) := by
  intro st
  induction st using scrapeLoop.induct web maxPages maxConc hmc with
  | case1 st hstop =>
      intro h1 h2 h3
      rw [scrapeLoop, dif_pos hstop]
      exact ⟨h1.of_append_left,
        fun v hv => h2 v (List.mem_append.mpr (Or.inl hv)), h3⟩
  | case2 st hstop ih =>
      intro h1 h2 h3
      rw [scrapeLoop, dif_neg hstop]
      have he : (st.log ++ st.queue.take maxConc) ++ st.queue.drop maxConc
          = st.log ++ st.queue := by
        rw [List.append_assoc, List.take_append_drop]
      have hmid1 : ((st.log ++ st.queue.take maxConc) ++ st.queue.drop maxConc).Nodup := by
        rw [he]; exact h1
      have hmid2 : ∀ v ∈ (st.log ++ st.queue.take maxConc) ++ st.queue.drop maxConc,
          v ∈ st.visited := by
        rw [he]; exact h2
      have hpr := processResults_inv web (st.queue.take maxConc)
        { st with queue := st.queue.drop maxConc,
                  log := st.log ++ st.queue.take maxConc }
        hmid1 hmid2
      apply ih
      · exact hpr.2.1
      · exact hpr.2.2.1
      · rw [hpr.2.2.2.2, hpr.1]
        dsimp only
        rw [h3, List.countP_append]

theorem browserOkStep_inv (s : CrawlState) (recs : List OutputRecord)
    (next : Option String)
    (h1 : (s.log ++ s.queue).Nodup)
    (h2 : ∀ v ∈ s.log ++ s.queue, v ∈ s.visited) :
    (browserOkStep s recs next).log = s.log
  ∧ ((browserOkStep s recs next).log ++ (browserOkStep s recs next).queue).Nodup
  ∧ (∀ v ∈ (browserOkStep s recs next).log ++ (browserOkStep s recs next).queue,
      v ∈ (browserOkStep s recs next).visited)
  ∧ (browserOkStep s recs next).pageCount = s.pageCount + 1 := by
  refine ⟨?_, ?_, ?_, ?_⟩
  · exact enqueueNext_log { s with recs := s.recs ++ recs } next
  · exact (enqueueNext_nodup_mem { s with recs := s.recs ++ recs } next h1 h2).1
  · exact (enqueueNext_nodup_mem { s with recs := s.recs ++ recs } next h1 h2).2
  · show (enqueueNext { s with recs := s.recs ++ recs } next).pageCount + 1
        = s.pageCount + 1
    rw [enqueueNext_pageCount]

theorem scrapeBrowserLoop_inv (web : BrowserWeb) (maxPages : Nat) :
    ∀ (st : CrawlState),
      (st.log ++ st.queue).Nodup →
      (∀ v ∈ st.log ++ st.queue, v ∈ st.visited) →
      st.pageCount = st.log.countP (fun v => isOkPage (web v)) →
        (scrapeBrowserLoop web maxPages st).log.Nodup
      ∧ (∀ v ∈ (scrapeBrowserLoop web maxPages st).log,
          v ∈ (scrapeBrowserLoop web maxPages st).visited)
      ∧ (scrapeBrowserLoop web maxPages st).pageCount
          = (scrapeBrowserLoop web maxPages st).log.countP
              (fun v => isOkPage (web v)) := by
  intro st
  induction st using scrapeBrowserLoop.induct web maxPages with
  | case1 st hstop =>
      intro h1 h2 h3
      rw [scrapeBrowserLoop, dif_pos hstop]
      exact ⟨h1.of_append_left,
        fun v hv => h2 v (List.mem_append.mpr (Or.inl hv)), h3⟩
  | case2 st hstop hq =>
      intro _ _ _
      exact absurd (Or.inl hq) hstop
  | case3 st hstop u rest hq hw ih =>
      intro h1 h2 h3
      have hstep : scrapeBrowserLoop web maxPages st
          = scrapeBrowserLoop web maxPages
              { st with queue := rest, log := st.log ++ [u] } := by
        conv_lhs => rw [scrapeBrowserLoop]
        rw [dif_neg hstop]
        split
        · rename_i heq
          rw [hq] at heq
          exact absurd heq (List.cons_ne_nil u rest)
        · rename_i u2 rest2 heq
          rw [hq] at heq
          injection heq with he1 he2
          subst he1
          subst he2
          rw [hw]
      have key : (st.log ++ [u]) ++ rest = st.log ++ st.queue := by
        rw [hq]
        simp
      have hA1 : ((st.log ++ [u]) ++ rest).Nodup := by
        rw [key]
        exact h1
      have hA2 : ∀ v ∈ (st.log ++ [u]) ++ rest, v ∈ st.visited := by
        intro v hv
        rw [key] at hv
        exact h2 v hv
      rw [hstep]
      refine ih ?_ ?_ ?_
      · exact hA1
      · exact hA2
      · show st.pageCount = (st.log ++ [u]).countP (fun v => isOkPage (web v))
        rw [List.countP_append, h3]
        simp [hw, isOkPage]
  | case4 st hstop u rest hq recs hw ih =>
      intro h1 h2 h3
      have hstep : scrapeBrowserLoop web maxPages st
          = scrapeBrowserLoop web maxPages
              { st with queue := rest, log := st.log ++ [u],
                        recs := st.recs ++ recs } := by
        conv_lhs => rw [scrapeBrowserLoop]
        rw [dif_neg hstop]
        split
        · rename_i heq
          rw [hq] at heq
          exact absurd heq (List.cons_ne_nil u rest)
        · rename_i u2 rest2 heq
          rw [hq] at heq
          injection heq with he1 he2
          subst he1
          subst he2
          rw [hw]
      have key : (st.log ++ [u]) ++ rest = st.log ++ st.queue := by
        rw [hq]
        simp
      have hA1 : ((st.log ++ [u]) ++ rest).Nodup := by
        rw [key]
        exact h1
      have hA2 : ∀ v ∈ (st.log ++ [u]) ++ rest, v ∈ st.visited := by
        intro v hv
        rw [key] at hv
        exact h2 v hv
      rw [hstep]
      refine ih ?_ ?_ ?_
      · exact hA1
      · exact hA2
      · show st.pageCount = (st.log ++ [u]).countP (fun v => isOkPage (web v))
        rw [List.countP_append, h3]
        simp [hw, isOkPage]
  | case5 st hstop u rest hq recs next hw ih =>
      intro h1 h2 h3
      have hstep : scrapeBrowserLoop web maxPages st
          = scrapeBrowserLoop web maxPages
              (browserOkStep { st with queue := rest, log := st.log ++ [u] }
                recs next) := by
        conv_lhs => rw [scrapeBrowserLoop]
        rw [dif_neg hstop]
        split
        · rename_i heq
          rw [hq] at heq
          exact absurd heq (List.cons_ne_nil u rest)
        · rename_i u2 rest2 heq
          rw [hq] at heq
          injection heq with he1 he2
          subst he1
          subst he2
          rw [hw]
      have key : (st.log ++ [u]) ++ rest = st.log ++ st.queue := by
        rw [hq]
        simp
      have hA1 : ((st.log ++ [u]) ++ rest).Nodup := by
        rw [key]
        exact h1
      have hA2 : ∀ v ∈ (st.log ++ [u]) ++ rest, v ∈ st.visited := by
        intro v hv
        rw [key] at hv
        exact h2 v hv
      have hBI := browserOkStep_inv
        { st with queue := rest, log := st.log ++ [u] } recs next hA1 hA2
      rw [hstep]
      refine ih ?_ ?_ ?_
      · exact hBI.2.1
      · exact hBI.2.2.1
      · rw [hBI.2.2.2, hBI.1]
        show st.pageCount + 1 = (st.log ++ [u]).countP (fun v => isOkPage (web v))
        rw [List.countP_append, h3]
        simp [hw, isOkPage]

/-! ## Page-count bookkeeping helpers -/

theorem countP_not_add (p : String → Bool) (l : List String) :
    l.countP p + l.countP (fun v => !(p v)) = l.length := by
  induction l with
  | nil => rfl
  | cons x xs ih =>
      simp only [List.countP_cons, List.length_cons]
      cases hp : p x <;> simp [hp] <;> omega

theorem countP_isNone_eq (web : HttpxWeb) (l : List String) :
    l.countP (fun v => (web v).isNone)
      = l.countP (fun v => !((web v).isSome)) := by
  induction l with
  | nil => rfl
  | cons x xs ih =>
      simp only [List.countP_cons, ih]
      rcases hx : web x <;> simp [hx]

/-! ## _clean_records structure lemmas -/

theorem dedupSeen_sublist : ∀ (l : List OutputRecord) (seen : List FieldData),
    List.Sublist (dedupSeen seen l) l := by
  intro l
  induction l with
  | nil =>
      intro seen
      simp [dedupSeen]
  | cons r rs ih =>
      intro seen
      simp only [dedupSeen]
      split
      · exact (ih seen).cons r
      · exact (ih (canonOf r :: seen)).cons₂ r

theorem dedupSeen_canon : ∀ (l : List OutputRecord) (seen : List FieldData),
    ((dedupSeen seen l).map canonOf).Nodup
  ∧ ∀ c ∈ (dedupSeen seen l).map canonOf, c ∉ seen := by
  intro l
  induction l with
  | nil =>
      intro seen
      simp [dedupSeen]
  | cons r rs ih =>
      intro seen
      simp only [dedupSeen]
      split
      · exact ih seen
      · rename_i hnot
        have h2 := ih (canonOf r :: seen)
        simp only [List.map_cons, List.nodup_cons]
        refine ⟨⟨?_, h2.1⟩, ?_⟩
        · intro hmem
          exact (h2.2 (canonOf r) hmem) (List.mem_cons_self _ _)
        · intro c hc
          rcases List.mem_cons.mp hc with hc | hc
          · subst hc
            exact hnot
          · exact fun hs => (h2.2 c hc) (List.mem_cons_of_mem _ hs)

/-- C10: the max_pages cap is compared against successfully processed pages
only.  In both scrape paths the final page counter equals the number of
attempted URLs whose fetch succeeded (countP over the attempt log), the
number of attempted URLs splits into successes plus failures, and the
concrete runs webFail / webBFail attempt two URLs while counting one page
and still return normally. -/
theorem c10_page_budget :
    (∀ (web : HttpxWeb) (url : String) (maxPages maxConc : Nat)
        (hmc : 0 < maxConc) (run : ScrapeRun),
        scrapeHttpx web url maxPages maxConc hmc = some run →
          run.pageCount = run.loopLog.countP (fun v => (web v).isSome)
        ∧ run.loopLog.length
            = run.pageCount + run.loopLog.countP (fun v => (web v).isNone))
  ∧ (∀ (web : BrowserWeb) (url : String) (maxPages : Nat) (run : ScrapeRun),
        scrapeBrowser web url maxPages = some run →
          run.pageCount = run.loopLog.countP (fun v => isOkPage (web v))
        ∧ run.loopLog.length
            = run.pageCount
              + run.loopLog.countP (fun v => !(isOkPage (web v))))
  ∧ scrapeHttpx webFail "https://a.example/" 10 5 (by omega) = some runFail
  ∧ runFail.loopLog.length = 2 ∧ runFail.pageCount = 1
  ∧ scrapeBrowser webBFail "https://a.example/" 10 = some runBFail
  ∧ runBFail.loopLog.length = 2 ∧ runBFail.pageCount = 1 := by
  refine ⟨?_, ?_, ?_, rfl, rfl, ?_, rfl, rfl⟩
  · intro web url maxPages maxConc hmc run h
    rcases hw : web url with _ | p
    · simp only [scrapeHttpx, hw] at h
      exact Option.noConfusion h
    · simp only [scrapeHttpx, hw] at h
      rw [Option.some.injEq] at h
      subst h
      have hinv := scrapeLoop_inv web maxPages maxConc hmc ⟨[url], [url], [], 0, []⟩
        (by simp) (by simp) (by simp)
      refine ⟨hinv.2.2, ?_⟩
      have hc := countP_not_add (fun v => (web v).isSome)
        ((scrapeLoop web maxPages maxConc hmc ⟨[url], [url], [], 0, []⟩).log)
      have hn := countP_isNone_eq web
        ((scrapeLoop web maxPages maxConc hmc ⟨[url], [url], [], 0, []⟩).log)
      have hp := hinv.2.2
      dsimp only at hp ⊢
      rw [hp, hn]
      omega
  · intro web url maxPages run h
    rcases hb : web url with _ | recs | ⟨recs, next⟩
    · simp only [scrapeBrowser, hb] at h
      exact Option.noConfusion h
    · simp only [scrapeBrowser, hb] at h
      rw [Option.some.injEq] at h
      subst h
      have hinv := scrapeBrowserLoop_inv web maxPages ⟨[url], [url], [], 0, []⟩
        (by simp) (by simp) (by simp)
      refine ⟨hinv.2.2, ?_⟩
      have hc := countP_not_add (fun v => isOkPage (web v))
        ((scrapeBrowserLoop web maxPages ⟨[url], [url], [], 0, []⟩).log)
      have hp := hinv.2.2
      dsimp only at hp ⊢
      rw [hp]
      omega
    · simp only [scrapeBrowser, hb] at h
      rw [Option.some.injEq] at h
      subst h
      have hinv := scrapeBrowserLoop_inv web maxPages ⟨[url], [url], [], 0, []⟩
        (by simp) (by simp) (by simp)
      refine ⟨hinv.2.2, ?_⟩
      have hc := countP_not_add (fun v => isOkPage (web v))
        ((scrapeBrowserLoop web maxPages ⟨[url], [url], [], 0, []⟩).log)
      have hp := hinv.2.2
      dsimp only at hp ⊢
      rw [hp]
      omega
  · simp [scrapeHttpx, scrapeLoop, processResults, httpxStep, enqueueNext,
      webFail, runFail]
  · simp [scrapeBrowser, scrapeBrowserLoop, browserOkStep, enqueueNext,
      webBFail, runBFail, cleanRecords, dedupSeen, sortKeys, canonOf,
      nonNoneCount, insertByKey]

/-- C9 (amended): within the crawl loop itself no URL is fetched more than
once — the attempt log of either path has no duplicates, every logged URL is
in the final visited set, and a next-page URL already in visited is never
enqueued — and a cyclic pagination graph terminates (webCyc stops after its
two pages).  However, the full run fetches the start URL twice: once for
selector inference and once again inside the loop, as fullLog = url :: loopLog
records (the unamended claim fails on that double fetch, see the
counterexample). -/
theorem c9_visited_discipline :
    (∀ (st : CrawlState) (nu : String),
        nu ∈ st.visited → enqueueNext st (some nu) = st)
  ∧ (∀ (web : HttpxWeb) (url : String) (maxPages maxConc : Nat)
        (hmc : 0 < maxConc) (run : ScrapeRun),
        scrapeHttpx web url maxPages maxConc hmc = some run →
          run.fullLog = url :: run.loopLog
        ∧ run.loopLog.Nodup
        ∧ ∀ v ∈ run.loopLog, v ∈ run.visitedFinal)
  ∧ (∀ (web : BrowserWeb) (url : String) (maxPages : Nat) (run : ScrapeRun),
        scrapeBrowser web url maxPages = some run →
          run.fullLog = url :: run.loopLog
        ∧ run.loopLog.Nodup
        ∧ ∀ v ∈ run.loopLog, v ∈ run.visitedFinal)
  ∧ scrapeHttpx webCyc "https://a.example/" 10 5 (by omega) = some runCyc
  ∧ runCyc.loopLog.Nodup
  ∧ runCyc.pageCount = 2 := by
  refine ⟨?_, ?_, ?_, ?_, by decide, rfl⟩
  · intro st nu hmem
    simp only [enqueueNext]
    rw [if_neg]
    intro hc
    exact hc.2 hmem
  · intro web url maxPages maxConc hmc run h
    rcases hw : web url with _ | p
    · simp only [scrapeHttpx, hw] at h
      exact Option.noConfusion h
    · simp only [scrapeHttpx, hw] at h
      rw [Option.some.injEq] at h
      subst h
      have hinv := scrapeLoop_inv web maxPages maxConc hmc ⟨[url], [url], [], 0, []⟩
        (by simp) (by simp) (by simp)
      exact ⟨rfl, hinv.1, hinv.2.1⟩
  · intro web url maxPages run h
    rcases hb : web url with _ | recs | ⟨recs, next⟩
    · simp only [scrapeBrowser, hb] at h
      exact Option.noConfusion h
    · simp only [scrapeBrowser, hb] at h
      rw [Option.some.injEq] at h
      subst h
      have hinv := scrapeBrowserLoop_inv web maxPages ⟨[url], [url], [], 0, []⟩
        (by simp) (by simp) (by simp)
      exact ⟨rfl, hinv.1, hinv.2.1⟩
    · simp only [scrapeBrowser, hb] at h
      rw [Option.some.injEq] at h
      subst h
      have hinv := scrapeBrowserLoop_inv web maxPages ⟨[url], [url], [], 0, []⟩
        (by simp) (by simp) (by simp)
      exact ⟨rfl, hinv.1, hinv.2.1⟩
  · simp [scrapeHttpx, scrapeLoop, processResults, httpxStep, enqueueNext,
      webCyc, runCyc]

/-- C9 counterexample to the unamended claim "no URL is fetched more than
once within one scrape run": the httpx path fetches the start URL once for
selector inference and once again as the first loop page, so the full fetch
log of the webDup run names the start URL twice. -/
theorem c9_counterexample :
    scrapeHttpx webDup "https://site.example/" 10 5 (by omega) = some runDup
  ∧ runDup.fullLog.count "https://site.example/" = 2
  ∧ ¬ runDup.fullLog.Nodup := by
  refine ⟨?_, by decide, by decide⟩
  simp [scrapeHttpx, scrapeLoop, processResults, httpxStep, enqueueNext,
    webDup, runDup]

/-- C1: _clean_records itself does guarantee the claimed post-processing —
every surviving record has at least 2 non-null fields, the key-sorted tuples
of the survivors are pairwise distinct, and the survivors are a subsequence
(first-seen order) of the input — but the httpx scrape path returns its
records without ever calling _clean_records: the webDup run returns a
duplicated record and a one-field record verbatim, violating both
guarantees, while the browser path cleans the identical page down to the
single record the claim demands. -/
theorem c1_clean_records_gap :
    (∀ recs : List OutputRecord,
        (∀ r ∈ cleanRecords recs, 2 ≤ nonNoneCount r.data)
      ∧ ((cleanRecords recs).map canonOf).Nodup
      ∧ List.Sublist (cleanRecords recs) recs)
  ∧ scrapeHttpx webDup "https://site.example/" 10 5 (by omega) = some runDup
  ∧ runDup.result.records = [r1C1, r1C1, r2C1]
  ∧ ¬ ((runDup.result.records.map canonOf).Nodup)
  ∧ nonNoneCount r2C1.data = 1
  ∧ cleanRecords runDup.result.records = [r1C1]
  ∧ (scrapeBrowser webBDup "https://site.example/" 10).map
      (fun run => run.result.records) = some [r1C1] := by
  refine ⟨?_, ?_, rfl,
    by simp [runDup, r1C1, r2C1, canonOf, sortKeys, insertByKey],
    by decide,
    by simp [runDup, cleanRecords, dedupSeen, sortKeys, canonOf, nonNoneCount,
      insertByKey, r1C1, r2C1], ?_⟩
  · intro recs
    refine ⟨?_, (dedupSeen_canon _ []).1, ?_⟩
    · intro r hr
      have hmem := (dedupSeen_sublist
        (recs.filter (fun r => 2 ≤ nonNoneCount r.data)) []).subset hr
      have hdec := List.of_mem_filter hmem
      simpa using hdec
    · exact (dedupSeen_sublist _ []).trans (List.filter_sublist recs)
  · simp [scrapeHttpx, scrapeLoop, processResults, httpxStep, enqueueNext,
      webDup, runDup]
  · simp [scrapeBrowser, scrapeBrowserLoop, browserOkStep, enqueueNext,
      webBDup, cleanRecords, dedupSeen, sortKeys, canonOf, nonNoneCount,
      insertByKey, r1C1, r2C1]

/-! ## String-length bookkeeping for the sketch bound -/

theorem length_mk_eq (l : List Char) : (String.mk l).length = l.length := rfl

theorem pyTake_len (s : String) (n : Nat) : (pyTake s n).length ≤ n := by
  show (s.toList.take n).length ≤ n
  rw [List.length_take]
  exact Nat.min_le_left _ _

theorem truncateText_len (s : String) (m : Nat) :
    (truncateText s m).length ≤ m + 3 := by
  simp only [truncateText]
  split
  · rw [String.length_append]
    have h1 := pyTake_len (String.mk (pyStripL (collapseGo false s.toList))) m
    have h3 : ("..." : String).length = 3 := rfl
    omega
  · rename_i hle
    omega

theorem joinSp_len : ∀ (l : List String),
    (joinSp l).length ≤ (l.map String.length).sum + l.length := by
  intro l
  match l with
  | [] => simp [joinSp]
  | [x] => simp [joinSp]
  | x :: y :: xs =>
      have ih := joinSp_len (y :: xs)
      have hsp : (" " : String).length = 1 := rfl
      simp only [joinSp, String.length_append, List.map_cons, List.sum_cons,
        List.length_cons] at ih ⊢
      omega

theorem joinNL_len : ∀ (l : List String),
    (joinNL l).length ≤ (l.map String.length).sum + l.length := by
  intro l
  match l with
  | [] => simp [joinNL]
  | [x] => simp [joinNL]
  | x :: y :: xs =>
      have ih := joinNL_len (y :: xs)
      have hnl : ("\n" : String).length = 1 := rfl
      simp only [joinNL, String.length_append, List.map_cons, List.sum_cons,
        List.length_cons] at ih ⊢
      omega

theorem joinNL_mem_le : ∀ (l : List String) (s : String), s ∈ l →
    s.length ≤ (joinNL l).length := by
  intro l
  match l with
  | [] => intro s hs; cases hs
  | [x] =>
      intro s hs
      rcases List.mem_singleton.mp hs with rfl
      exact Nat.le_refl _
  | x :: y :: xs =>
      intro s hs
      rcases List.mem_cons.mp hs with rfl | hs
      · simp only [joinNL, String.length_append]
        omega
      · have := joinNL_mem_le (y :: xs) s hs
        simp only [joinNL, String.length_append]
        omega

theorem sum_map_le {α : Type} (l : List α) (f : α → Nat) (K : Nat)
    (h : ∀ x ∈ l, f x ≤ K) : (l.map f).sum ≤ l.length * K := by
  induction l with
  | nil => simp
  | cons x xs ih =>
      simp only [List.map_cons, List.sum_cons, List.length_cons]
      have h1 := h x (List.mem_cons_self _ _)
      have h2 := ih (fun a ha => h a (List.mem_cons_of_mem _ ha))
      calc f x + (xs.map f).sum ≤ K + xs.length * K := Nat.add_le_add h1 h2
        _ = (xs.length + 1) * K := by ring

theorem natDigits_small (n : Nat) (h : n < 10) : natDigits n = [digitChar n] := by
  rw [natDigits]
  exact dif_pos h

theorem natDigits_big (n : Nat) (h : ¬ n < 10) :
    natDigits n = natDigits (n / 10) ++ [digitChar (n % 10)] := by
  conv_lhs => rw [natDigits]
  exact dif_neg h

theorem natLen_pos (n : Nat) : 1 ≤ natLen n := by
  unfold natLen
  by_cases h : n < 10
  · rw [natDigits_small n h]
    simp
  · rw [natDigits_big n h]
    simp

theorem natLen_mono : ∀ (n m : Nat), m ≤ n → natLen m ≤ natLen n := by
  intro n
  induction n using Nat.strong_induction_on with
  | _ n ih =>
      intro m hmn
      by_cases hn : n < 10
      · have hm : m < 10 := lt_of_le_of_lt hmn hn
        unfold natLen
        rw [natDigits_small n hn, natDigits_small m hm]
        simp
      · by_cases hm : m < 10
        · unfold natLen
          rw [natDigits_small m hm]
          simp only [List.length_singleton]
          exact natLen_pos n
        · unfold natLen
          rw [natDigits_big n hn, natDigits_big m hm]
          simp only [List.length_append, List.length_singleton]
          have hrec := ih (n / 10) (Nat.div_lt_self (by omega) (by omega))
            (m / 10) (Nat.div_le_div_right hmn)
          unfold natLen at hrec
          omega

theorem natLen_le_succ : ∀ (n : Nat), natLen n ≤ n + 1 := by
  intro n
  induction n using Nat.strong_induction_on with
  | _ n ih =>
      by_cases hn : n < 10
      · unfold natLen
        rw [natDigits_small n hn]
        simp
      · unfold natLen
        rw [natDigits_big n hn]
        simp only [List.length_append, List.length_singleton]
        have hrec := ih (n / 10) (Nat.div_lt_self (by omega) (by omega))
        unfold natLen at hrec
        have : n / 10 + 1 ≤ n := by omega
        omega

theorem natLen_pow10 : ∀ (k : Nat), natLen (10 ^ k) = k + 1 := by
  intro k
  induction k with
  | zero =>
      unfold natLen
      simp only [pow_zero]
      rw [natDigits_small 1 (by omega)]
      simp
  | succ j ih =>
      have hge : ¬ 10 ^ (j + 1) < 10 := by
        have h1 : 10 ^ 1 ≤ 10 ^ (j + 1) := Nat.pow_le_pow_right (by omega) (by omega)
        simp only [pow_one] at h1
        omega
      unfold natLen
      rw [natDigits_big (10 ^ (j + 1)) hge]
      simp only [List.length_append, List.length_singleton]
      have hdiv : 10 ^ (j + 1) / 10 = 10 ^ j := by
        rw [pow_succ]
        exact Nat.mul_div_cancel _ (by omega)
      rw [hdiv]
      unfold natLen at ih
      omega

/-! ## Subtree measure lemmas -/

theorem elemCountL_cons (c : Dom) (cs : List Dom) :
    elemCountL (c :: cs) = elemCount c + elemCountL cs := by
  simp only [elemCountL]

theorem maxTagLenL_cons (c : Dom) (cs : List Dom) :
    maxTagLenL (c :: cs) = Nat.max (maxTagLen c) (maxTagLenL cs) := by
  simp only [maxTagLenL]

theorem elemCountL_nil : elemCountL [] = 0 := by
  simp only [elemCountL]

theorem maxTagLenL_nil : maxTagLenL [] = 0 := by
  simp only [maxTagLenL]

theorem elemCountL_append (l1 l2 : List Dom) :
    elemCountL (l1 ++ l2) = elemCountL l1 + elemCountL l2 := by
  induction l1 with
  | nil =>
      rw [List.nil_append, elemCountL_nil]
      omega
  | cons c cs ih =>
      rw [List.cons_append, elemCountL_cons, elemCountL_cons, ih]
      omega

theorem maxTagLenL_append (l1 l2 : List Dom) :
    maxTagLenL (l1 ++ l2) = Nat.max (maxTagLenL l1) (maxTagLenL l2) := by
  induction l1 with
  | nil =>
      rw [List.nil_append, maxTagLenL_nil]
      simp
  | cons c cs ih =>
      rw [List.cons_append, maxTagLenL_cons, maxTagLenL_cons, ih]
      exact (Nat.max_assoc _ _ _).symm

mutual
theorem maxTagLen_desc (d : Dom) : ∀ e ∈ descElems d, maxTagLen e ≤ maxTagLen d := by
  match d with
  | .txt s =>
      intro e he
      simp [descElems] at he
  | .elem t a cs =>
      intro e he
      simp only [descElems] at he
      have h := maxTagLen_descL cs e he
      simp only [maxTagLen]
      exact le_trans h (Nat.le_max_right _ _)
theorem maxTagLen_descL (l : List Dom) :
    ∀ e ∈ descElemsL l, maxTagLen e ≤ maxTagLenL l := by
  match l with
  | [] =>
      intro e he
      simp [descElemsL] at he
  | c :: cs =>
      intro e he
      simp only [descElemsL] at he
      rw [maxTagLenL_cons]
      rcases List.mem_append.mp he with h1 | h2
      · match c with
        | .txt s => simp at h1
        | .elem t2 a2 cs2 =>
            rcases List.mem_cons.mp h1 with rfl | h1b
            · exact Nat.le_max_left _ _
            · have h := maxTagLen_desc (Dom.elem t2 a2 cs2) e h1b
              exact le_trans h (Nat.le_max_left _ _)
      · have h := maxTagLen_descL cs e h2
        exact le_trans h (Nat.le_max_right _ _)
end

mutual
theorem elemCount_desc (d : Dom) : ∀ e ∈ descElems d, elemCount e ≤ elemCount d := by
  match d with
  | .txt s =>
      intro e he
      simp [descElems] at he
  | .elem t a cs =>
      intro e he
      simp only [descElems] at he
      have h := elemCount_descL cs e he
      simp only [elemCount]
      omega
theorem elemCount_descL (l : List Dom) :
    ∀ e ∈ descElemsL l, elemCount e ≤ elemCountL l := by
  match l with
  | [] =>
      intro e he
      simp [descElemsL] at he
  | c :: cs =>
      intro e he
      simp only [descElemsL] at he
      rw [elemCountL_cons]
      rcases List.mem_append.mp he with h1 | h2
      · match c with
        | .txt s => simp at h1
        | .elem t2 a2 cs2 =>
            rcases List.mem_cons.mp h1 with rfl | h1b
            · omega
            · have h := elemCount_desc (Dom.elem t2 a2 cs2) e h1b
              omega
      · have h := elemCount_descL cs e h2
        omega
end

mutual
theorem descElems_len (d : Dom) : (descElems d).length ≤ elemCount d := by
  match d with
  | .txt s => simp [descElems, elemCount]
  | .elem t a cs =>
      simp only [descElems, elemCount]
      have h := descElemsL_len cs
      omega
theorem descElemsL_len (l : List Dom) : (descElemsL l).length ≤ elemCountL l := by
  match l with
  | [] => simp [descElemsL, elemCountL]
  | c :: cs =>
      simp only [descElemsL, List.length_append]
      rw [elemCountL_cons]
      have h2 := descElemsL_len cs
      match c with
      | .txt s =>
          simp only [List.length_nil, elemCount]
          omega
      | .elem t2 a2 cs2 =>
          simp only [List.length_cons, elemCount]
          have h1 := descElemsL_len cs2
          simp only [descElems]
          omega
end

mutual
theorem maxTagLen_strip (d : Dom) : maxTagLen (stripNoise d) ≤ maxTagLen d := by
  match d with
  | .txt s => simp [stripNoise]
  | .elem t a cs =>
      simp only [stripNoise, maxTagLen]
      have h := maxTagLen_stripL cs
      exact max_le_max (Nat.le_refl _) h
theorem maxTagLen_stripL (l : List Dom) :
    maxTagLenL (stripNoiseL l) ≤ maxTagLenL l := by
  match l with
  | [] => simp [stripNoiseL]
  | c :: cs =>
      simp only [stripNoiseL]
      rw [maxTagLenL_append, maxTagLenL_cons]
      have h2 := maxTagLen_stripL cs
      apply Nat.max_le.mpr
      match c with
      | .txt s =>
          dsimp only
          constructor
          · rw [maxTagLenL_cons, maxTagLenL_nil]
            simp [maxTagLen]
          · exact le_trans h2 (Nat.le_max_right _ _)
      | .elem t2 a2 cs2 =>
          dsimp only
          by_cases hn : noiseTag t2
          · rw [if_pos hn]
            constructor
            · rw [maxTagLenL_nil]
              exact Nat.zero_le _
            · exact le_trans h2 (Nat.le_max_right _ _)
          · rw [if_neg hn]
            constructor
            · rw [maxTagLenL_cons, maxTagLenL_nil]
              have h1 := maxTagLen_strip (Dom.elem t2 a2 cs2)
              refine le_trans ?_ (Nat.le_max_left _ _)
              apply Nat.max_le.mpr
              exact ⟨h1, Nat.zero_le _⟩
            · exact le_trans h2 (Nat.le_max_right _ _)
end

mutual
theorem elemCount_strip (d : Dom) : elemCount (stripNoise d) ≤ elemCount d := by
  match d with
  | .txt s => simp [stripNoise]
  | .elem t a cs =>
      simp only [stripNoise, elemCount]
      have h := elemCount_stripL cs
      omega
theorem elemCount_stripL (l : List Dom) :
    elemCountL (stripNoiseL l) ≤ elemCountL l := by
  match l with
  | [] => simp [stripNoiseL]
  | c :: cs =>
      simp only [stripNoiseL]
      rw [elemCountL_append, elemCountL_cons]
      have h2 := elemCount_stripL cs
      match c with
      | .txt s =>
          dsimp only
          rw [elemCountL_cons, elemCountL_nil]
          simp only [elemCount]
          omega
      | .elem t2 a2 cs2 =>
          dsimp only
          by_cases hn : noiseTag t2
          · rw [if_pos hn]
            rw [elemCountL_nil]
            simp only [elemCount]
            omega
          · rw [if_neg hn]
            rw [elemCountL_cons, elemCountL_nil]
            have h1 := elemCount_strip (Dom.elem t2 a2 cs2)
            simp only [elemCount] at h1 ⊢
            omega
end

theorem maxTagLen_collectKwL : ∀ (l : List Dom) (kw : String)
    (al : List String) (un : Bool),
    ∀ e ∈ collectKwL kw al un l, maxTagLen e ≤ maxTagLenL l := by
  intro l
  match l with
  | [] =>
      intro kw al un e he
      simp [collectKwL] at he
  | (.txt s) :: cs =>
      intro kw al un e he
      simp only [collectKwL] at he
      have h := maxTagLen_collectKwL cs kw al un e he
      simp only [maxTagLenL]
      exact le_trans h (Nat.le_max_right _ _)
  | (.elem t a ch) :: cs =>
      intro kw al un e he
      simp only [collectKwL] at he
      rcases List.mem_append.mp he with h1 | h23
      · rcases List.mem_append.mp h1 with h0 | hch
        · have he2 : e = Dom.elem t a ch := by
            by_cases hc : (match List.lookup "class" a with
                | some c => strContains c kw
                | none => false)
                && al.contains t
                && !(decide ((textDS (Dom.elem t a ch)).length < 30))
                && !un
            · simp only [hc, if_true] at h0
              exact List.mem_singleton.mp h0
            · simp only [hc, if_false] at h0
              cases h0
          subst he2
          simp only [maxTagLenL]
          exact Nat.le_max_left _ _
        · have h := maxTagLen_collectKwL ch kw al (un || navTag t) e hch
          simp only [maxTagLenL, maxTagLen]
          exact le_trans h (le_trans (Nat.le_max_right _ _) (Nat.le_max_left _ _))
      · have h := maxTagLen_collectKwL cs kw al un e h23
        simp only [maxTagLenL]
        exact le_trans h (Nat.le_max_right _ _)

/-! ## Per-fragment length bounds for the sketch builders -/

theorem tagOf_le (e : Dom) : (tagOf e).length ≤ maxTagLen e := by
  match e with
  | .txt s => simp [tagOf, maxTagLen]
  | .elem t a cs =>
      simp only [tagOf, maxTagLen]
      exact Nat.le_max_left _ _

theorem annotateCls_len (c : String) : (annotateCls c).length ≤ c.length + 19 := by
  unfold annotateCls
  split
  · rw [String.length_append, String.length_append]
    have h1 : ("class=\"" : String).length = 7 := rfl
    have h2 : ("\" ← NAME" : String).length = 8 := rfl
    omega
  · split
    · rw [String.length_append, String.length_append]
      have h1 : ("class=\"" : String).length = 7 := rfl
      have h2 : ("\" ← LOCATION" : String).length = 12 := rfl
      omega
    · split
      · rw [String.length_append, String.length_append]
        have h1 : ("class=\"" : String).length = 7 := rfl
        have h2 : ("\" ← DESC" : String).length = 8 := rfl
        omega
      · split
        · rw [String.length_append, String.length_append]
          have h1 : ("class=\"" : String).length = 7 := rfl
          have h2 : ("\" ← BATCH" : String).length = 9 := rfl
          omega
        · split
          · rw [String.length_append, String.length_append]
            have h1 : ("class=\"" : String).length = 7 := rfl
            have h2 : ("\" ← INDUSTRY" : String).length = 12 := rfl
            omega
          · rw [String.length_append, String.length_append]
            have h1 : ("class=\"" : String).length = 7 := rfl
            have h2 : ("\"" : String).length = 1 := rfl
            omega

theorem describeCell_len (cell : Dom) (mt T : Nat) (hT : maxTagLen cell ≤ T) :
    (describeCell cell mt).length ≤ mt + 2 * T + 100 := by
  unfold describeCell
  split
  · rename_i link rest heq
    simp only [String.length_append]
    have h1 : ("<a href=\"" : String).length = 9 := rfl
    have h2 : ("\">" : String).length = 2 := rfl
    have h3 : ("</a>" : String).length = 4 := rfl
    have h4 := pyTake_len (attrD link "href") 40
    have h5 := truncateText_len (textDS link) 30
    omega
  · split
    · rename_i ch rest heq
      have hch1 : ch ∈ (hasClassIn cell).filter (fun ch2 =>
          ["name", "Name", "value", "Value", "text"].any
            (fun k => strContains (attrD ch2 "class") k)) := by
        rw [heq]
        exact List.mem_cons_self _ _
      have hch2 : ch ∈ descElems cell :=
        List.mem_of_mem_filter (List.mem_of_mem_filter hch1)
      have htag : (tagOf ch).length ≤ T :=
        le_trans (tagOf_le ch) (le_trans (maxTagLen_desc cell ch hch2) hT)
      simp only [String.length_append]
      have h1 : ("<" : String).length = 1 := rfl
      have h2 : (" class=\"" : String).length = 8 := rfl
      have h3 : ("\">" : String).length = 2 := rfl
      have h4 : ("</" : String).length = 2 := rfl
      have h5 : (">" : String).length = 1 := rfl
      have h6 := pyTake_len (attrD ch "class") 30
      have h7 := truncateText_len (textDS ch) mt
      omega
    · have h := truncateText_len (textDS cell) mt
      omega

theorem flatMap_bound {α : Type} (l : List α) (F : α → List String) (S N : Nat)
    (h : ∀ x ∈ l, (∀ s ∈ F x, s.length ≤ S) ∧ (F x).length ≤ N) :
    (∀ s ∈ l.flatMap F, s.length ≤ S) ∧ (l.flatMap F).length ≤ l.length * N := by
  induction l with
  | nil => simp
  | cons x xs ih =>
      have hx := h x (List.mem_cons_self _ _)
      have hxs := ih (fun a ha => h a (List.mem_cons_of_mem _ ha))
      constructor
      · intro s hs
        rw [List.flatMap_cons] at hs
        rcases List.mem_append.mp hs with hs | hs
        · exact hx.1 s hs
        · exact hxs.1 s hs
      · rw [List.flatMap_cons, List.length_append, List.length_cons]
        have := hx.2
        have := hxs.2
        calc (F x).length + (xs.flatMap F).length
            ≤ N + xs.length * N := Nat.add_le_add hx.2 hxs.2
          _ = (xs.length + 1) * N := by ring

theorem tableLine0_len (table : Dom) : (tableLine0 table).length ≤ 120 := by
  simp only [tableLine0]
  split
  · simp only [String.length_append]
    have h1 : ("<table class=\"" : String).length = 14 := rfl
    have h2 : ("\">" : String).length = 2 := rfl
    have h3 := pyTake_len (attrD table "class") 100
    omega
  · split
    · simp only [String.length_append]
      have h1 : ("<table id=\"" : String).length = 11 := rfl
      have h2 : ("\">" : String).length = 2 := rfl
      have h3 := pyTake_len (attrD table "id") 50
      omega
    · have : ("<table>" : String).length = 7 := rfl
      omega

theorem thLine_len (h : Dom) : (thLine h).length ≤ 145 := by
  simp only [thLine]
  split
  · simp only [String.length_append]
    have h1 : ("    <th class=\"" : String).length = 15 := rfl
    have h2 : ("\">" : String).length = 2 := rfl
    have h3 : ("</th>" : String).length = 5 := rfl
    have h4 := pyTake_len (attrD h "class") 60
    have h5 := truncateText_len (textDS h) 60
    omega
  · simp only [String.length_append]
    have h1 : ("    <th>" : String).length = 8 := rfl
    have h3 : ("</th>" : String).length = 5 := rfl
    have h5 := truncateText_len (textDS h) 60
    omega

theorem tableHeaderLines_bound (table : Dom) :
    (∀ s ∈ tableHeaderLines table, s.length ≤ 145)
  ∧ (tableHeaderLines table).length ≤ 12 := by
  simp only [tableHeaderLines]
  split
  · simp
  · constructor
    · intro s hs
      rcases List.mem_append.mp hs with hs | hs
      · rcases List.mem_append.mp hs with hs | hs
        · rcases List.mem_singleton.mp hs with rfl
          have : ("  <thead><tr>" : String).length = 13 := rfl
          omega
        · rcases List.mem_map.mp hs with ⟨h, _, rfl⟩
          exact thLine_len h
      · rcases List.mem_singleton.mp hs with rfl
        have : ("  </tr></thead>" : String).length = 15 := rfl
        omega
    · simp only [List.length_append, List.length_singleton, List.length_map]
      have := List.length_take_le 10 (headCells table)
      omega

theorem tdLine_len (mt T : Nat) (cell : Dom) (hT : maxTagLen cell ≤ T) :
    (tdLine mt cell).length ≤ mt + 2 * T + 210 := by
  simp only [tdLine]
  have hc := describeCell_len cell mt T hT
  split
  · simp only [String.length_append]
    have h1 : ("      <td class=\"" : String).length = 17 := rfl
    have h2 : ("\">" : String).length = 2 := rfl
    have h3 : ("</td>" : String).length = 5 := rfl
    have h4 := pyTake_len (attrD cell "class") 80
    omega
  · simp only [String.length_append]
    have h1 : ("      <td>" : String).length = 10 := rfl
    have h3 : ("</td>" : String).length = 5 := rfl
    omega

theorem trBlock_bound (mt T : Nat) (row : Dom) (hT : maxTagLen row ≤ T) :
    (∀ s ∈ trBlock mt row, s.length ≤ mt + 2 * T + 305)
  ∧ (trBlock mt row).length ≤ 12 := by
  simp only [trBlock]
  constructor
  · intro s hs
    rcases List.mem_append.mp hs with hs | hs
    · rcases List.mem_append.mp hs with hs | hs
      · rcases List.mem_singleton.mp hs with rfl
        split
        · simp only [String.length_append]
          have h1 : ("    <tr class=\"" : String).length = 15 := rfl
          have h2 : ("\">" : String).length = 2 := rfl
          have h4 := pyTake_len (attrD row "class") 60
          omega
        · have : ("    <tr>" : String).length = 8 := rfl
          omega
      · rcases List.mem_map.mp hs with ⟨cell, hcell, rfl⟩
        have hcd : cell ∈ descElems row :=
          List.mem_of_mem_filter (List.take_subset _ _ hcell)
        have hTc : maxTagLen cell ≤ T :=
          le_trans (maxTagLen_desc row cell hcd) hT
        have := tdLine_len mt T cell hTc
        omega
    · rcases List.mem_singleton.mp hs with rfl
      have : ("    </tr>" : String).length = 9 := rfl
      omega
  · simp only [List.length_append, List.length_singleton, List.length_map]
    have := List.length_take_le 10 (cssTag ["td"] row)
    omega

theorem sketchTable_len (tbl : Dom) (mi mt T : Nat) (hT : maxTagLen tbl ≤ T) :
    (sketchTable tbl mi mt).length
      ≤ 2200 + 12 * mi * (310 + mt + 2 * T)
        + 2 * natLen (allRowsOf tbl).length := by
  simp only [sketchTable]
  refine le_trans (joinNL_len _) ?_
  have hfm := flatMap_bound ((allRowsOf tbl).take mi) (trBlock mt)
    (mt + 2 * T + 305) 12
    (fun row hrow => trBlock_bound mt T row
      (le_trans (maxTagLen_desc tbl row
        (List.mem_of_mem_filter (List.mem_of_mem_filter
          (List.take_subset _ _ hrow)))) hT))
  have hsum_rows : ((((allRowsOf tbl).take mi).flatMap (trBlock mt)).map
      String.length).sum
      ≤ (((allRowsOf tbl).take mi).flatMap (trBlock mt)).length
          * (mt + 2 * T + 305) :=
    sum_map_le _ _ _ (fun s hs => hfm.1 s hs)
  have hlen_rows : (((allRowsOf tbl).take mi).flatMap (trBlock mt)).length
      ≤ mi * 12 := by
    refine le_trans hfm.2 ?_
    exact Nat.mul_le_mul_right _ (List.length_take_le mi (allRowsOf tbl))
  have hsum_head : ((tableHeaderLines tbl).map String.length).sum ≤ 12 * 145 := by
    refine le_trans (sum_map_le _ _ 145 (tableHeaderLines_bound tbl).1) ?_
    exact Nat.mul_le_mul_right _ (tableHeaderLines_bound tbl).2
  have hcomment : ("<!-- Total rows: " ++ natStr (allRowsOf tbl).length
      ++ " (showing " ++ natStr ((allRowsOf tbl).take mi).length ++ ") -->").length
      ≤ 32 + 2 * natLen (allRowsOf tbl).length := by
    simp only [String.length_append]
    have h1 : ("<!-- Total rows: " : String).length = 17 := rfl
    have h2 : (" (showing " : String).length = 10 := rfl
    have h3 : (") -->" : String).length = 5 := rfl
    have h4 : (natStr (allRowsOf tbl).length).length
        = natLen (allRowsOf tbl).length := rfl
    have h5 : (natStr ((allRowsOf tbl).take mi).length).length
        = natLen ((allRowsOf tbl).take mi).length := rfl
    have h6 : natLen ((allRowsOf tbl).take mi).length
        ≤ natLen (allRowsOf tbl).length := by
      refine natLen_mono _ _ ?_
      rw [List.length_take]
      exact Nat.min_le_right _ _
    omega
  have hl0 := tableLine0_len tbl
  have hhlen := (tableHeaderLines_bound tbl).2
  have hmul : (((allRowsOf tbl).take mi).flatMap (trBlock mt)).length
        * (mt + 2 * T + 305)
      + (((allRowsOf tbl).take mi).flatMap (trBlock mt)).length
      ≤ 12 * mi * (310 + mt + 2 * T) := by
    have h1 : (((allRowsOf tbl).take mi).flatMap (trBlock mt)).length
          * (mt + 2 * T + 305)
        + (((allRowsOf tbl).take mi).flatMap (trBlock mt)).length
        = (((allRowsOf tbl).take mi).flatMap (trBlock mt)).length
            * (mt + 2 * T + 306) := by ring
    rw [h1]
    have h2 : mt + 2 * T + 306 ≤ 310 + mt + 2 * T := by omega
    calc (((allRowsOf tbl).take mi).flatMap (trBlock mt)).length
          * (mt + 2 * T + 306)
        ≤ (mi * 12) * (310 + mt + 2 * T) := Nat.mul_le_mul hlen_rows h2
      _ = 12 * mi * (310 + mt + 2 * T) := by ring
  have hb1 : ("  <tbody>" : String).length = 9 := rfl
  have hb2 : ("  </tbody>" : String).length = 10 := rfl
  have hb3 : ("</table>" : String).length = 8 := rfl
  simp only [List.map_append, List.sum_append, List.length_append,
    List.map_cons, List.sum_cons, List.length_cons, List.map_nil, List.sum_nil,
    List.length_nil]
  omega

theorem joinSp_two (l1 l2 : List String) (K1 K2 : Nat)
    (h1 : ∀ s ∈ l1, s.length ≤ K1) (h2 : ∀ s ∈ l2, s.length ≤ K2)
    (hl1 : l1.length ≤ 1) (hl2 : l2.length ≤ 1) :
    (joinSp (l1 ++ l2)).length ≤ K1 + K2 + 2 := by
  refine le_trans (joinSp_len _) ?_
  have s1 := sum_map_le l1 String.length K1 h1
  have s2 := sum_map_le l2 String.length K2 h2
  rw [List.map_append, List.sum_append, List.length_append]
  have m1 : l1.length * K1 ≤ 1 * K1 := Nat.mul_le_mul_right _ hl1
  have m2 : l2.length * K2 ≤ 1 * K2 := Nat.mul_le_mul_right _ hl2
  have e1 : 1 * K1 = K1 := Nat.one_mul _
  have e2 : 1 * K2 = K2 := Nat.one_mul _
  omega

theorem descAttrStr_len (child : Dom) : (descAttrStr child).length ≤ 211 := by
  simp only [descAttrStr]
  refine le_trans (joinSp_two _ _ 119 88 ?_ ?_ ?_ ?_) (by omega)
  · intro s hs
    split at hs
    · rcases List.mem_singleton.mp hs with rfl
      have ha := annotateCls_len (pyTake (attrD child "class") 100)
      have hp := pyTake_len (attrD child "class") 100
      omega
    · cases hs
  · intro s hs
    split at hs
    · rcases List.mem_singleton.mp hs with rfl
      simp only [String.length_append]
      have h1 : ("href=\"" : String).length = 6 := rfl
      have h2 : ("\"" : String).length = 1 := rfl
      have hp := pyTake_len (attrD child "href") 80
      omega
    · cases hs
  · split <;> simp
  · split <;> simp

theorem repAttrStr_len (e : Dom) : (repAttrStr e).length ≤ 180 := by
  simp only [repAttrStr]
  refine le_trans (joinSp_two _ _ 88 88 ?_ ?_ ?_ ?_) (by omega)
  · intro s hs
    split at hs
    · rcases List.mem_singleton.mp hs with rfl
      simp only [String.length_append]
      have h1 : ("class=\"" : String).length = 7 := rfl
      have h2 : ("\"" : String).length = 1 := rfl
      have hp := pyTake_len (attrD e "class") 80
      omega
    · cases hs
  · intro s hs
    split at hs
    · rcases List.mem_singleton.mp hs with rfl
      simp only [String.length_append]
      have h1 : ("href=\"" : String).length = 6 := rfl
      have h2 : ("\"" : String).length = 1 := rfl
      have hp := pyTake_len (attrD e "href") 80
      omega
    · cases hs
  · split <;> simp
  · split <;> simp

theorem descTextShort_len (child : Dom) : (descTextShort child).length ≤ 53 := by
  simp only [descTextShort]
  split
  · exact truncateText_len _ _
  · simp

theorem descLine_len (child : Dom) (s : String) (T : Nat)
    (h : descLine child = some s) (hT : maxTagLen child ≤ T) :
    s.length ≤ 280 + 2 * T := by
  have htag : (tagOf child).length ≤ T := le_trans (tagOf_le child) hT
  have hattr := descAttrStr_len child
  have htext := descTextShort_len child
  simp only [descLine] at h
  split at h
  · have h' := Option.some.inj h
    subst h'
    simp only [String.length_append]
    have h1 : ("  <" : String).length = 3 := rfl
    have h2 : (" " : String).length = 1 := rfl
    have h3 : (">" : String).length = 1 := rfl
    have h4 : ("</" : String).length = 2 := rfl
    omega
  · split at h
    · have h' := Option.some.inj h
      subst h'
      simp only [String.length_append]
      have h1 : ("  <" : String).length = 3 := rfl
      have h2 : (" " : String).length = 1 := rfl
      have h3 : ("/>" : String).length = 2 := rfl
      omega
    · split at h
      · have h' := Option.some.inj h
        subst h'
        simp only [String.length_append]
        have h1 : ("  <" : String).length = 3 := rfl
        have h3 : (">" : String).length = 1 := rfl
        have h4 : ("</" : String).length = 2 := rfl
        omega
      · cases h

theorem showDescLines_bound (e : Dom) (T : Nat) (hT : maxTagLen e ≤ T) :
    (∀ s ∈ showDescLines e, s.length ≤ 280 + 2 * T)
  ∧ (showDescLines e).length ≤ 50 := by
  constructor
  · intro s hs
    simp only [showDescLines] at hs
    rcases List.mem_filterMap.mp hs with ⟨child, hchild, hline⟩
    have hcd : child ∈ descElems e :=
      List.mem_of_mem_filter (List.take_subset _ _ hchild)
    have hTc : maxTagLen child ≤ T :=
      le_trans (maxTagLen_desc e child hcd) hT
    exact descLine_len child s T hline hTc
  · simp only [showDescLines]
    refine le_trans (List.length_filterMap_le _ _) ?_
    exact List.length_take_le _ _

theorem repBlock_bound (e : Dom) (T : Nat) (hT : maxTagLen e ≤ T) :
    (∀ s ∈ repBlock e, s.length ≤ 280 + 2 * T) ∧ (repBlock e).length ≤ 53 := by
  have htag : (tagOf e).length ≤ T := le_trans (tagOf_le e) hT
  have hsd := showDescLines_bound e T hT
  simp only [repBlock]
  constructor
  · intro s hs
    simp only [List.mem_append, List.mem_cons, List.mem_singleton,
      List.not_mem_nil, or_false] at hs
    rcases hs with (rfl | hs) | rfl | rfl
    · simp only [String.length_append]
      have h1 : ("<" : String).length = 1 := rfl
      have h2 : (" " : String).length = 1 := rfl
      have h3 : (">" : String).length = 1 := rfl
      have ha := repAttrStr_len e
      omega
    · exact hsd.1 s hs
    · simp only [String.length_append]
      have h4 : ("</" : String).length = 2 := rfl
      have h3 : (">" : String).length = 1 := rfl
      omega
    · have : ("" : String).length = 0 := rfl
      omega
  · simp only [List.length_append, List.length_singleton, List.length_cons,
      List.length_nil]
    have := hsd.2
    omega

theorem repSample_subset (elements : List Dom) :
    ∀ e ∈ repSample elements, e ∈ elements := by
  intro e he
  simp only [repSample] at he
  split at he
  · exact List.take_subset _ _ he
  · exact List.mem_of_mem_filter (List.take_subset _ _ he)

theorem repSample_len (elements : List Dom) : (repSample elements).length ≤ 5 := by
  simp only [repSample]
  split
  · exact List.length_take_le _ _
  · exact List.length_take_le _ _

theorem sketchRepeated_len (elements : List Dom) (T : Nat)
    (hT : ∀ e ∈ elements, maxTagLen e ≤ T) :
    (sketchRepeated elements).length
      ≤ 76000 + 530 * T + natLen elements.length := by
  simp only [sketchRepeated]
  refine le_trans (joinNL_len _) ?_
  have hfm := flatMap_bound (repSample elements) repBlock (280 + 2 * T) 53
    (fun e he => repBlock_bound e T (hT e (repSample_subset elements e he)))
  have hflatlen : ((repSample elements).flatMap repBlock).length ≤ 265 := by
    refine le_trans hfm.2 ?_
    calc (repSample elements).length * 53 ≤ 5 * 53 :=
          Nat.mul_le_mul_right _ (repSample_len elements)
      _ = 265 := rfl
  have hsum : (((repSample elements).flatMap repBlock).map String.length).sum
      ≤ 265 * (280 + 2 * T) := by
    refine le_trans (sum_map_le _ _ (280 + 2 * T) hfm.1) ?_
    exact Nat.mul_le_mul_right _ hflatlen
  have hcomment : ("<!-- Total items: " ++ natStr (repSample elements).length
      ++ " shown, " ++ natStr elements.length ++ " total -->").length
      ≤ 42 + natLen elements.length := by
    simp only [String.length_append]
    have h1 : ("<!-- Total items: " : String).length = 18 := rfl
    have h2 : (" shown, " : String).length = 8 := rfl
    have h3 : (" total -->" : String).length = 10 := rfl
    have h4 : (natStr (repSample elements).length).length
        = natLen (repSample elements).length := rfl
    have h5 : (natStr elements.length).length = natLen elements.length := rfl
    have h6 : natLen (repSample elements).length ≤ 6 := by
      have ha := natLen_le_succ (repSample elements).length
      have hb := repSample_len elements
      have hc := natLen_mono 5 (repSample elements).length hb
      have hd : natLen 5 = 1 := by
        unfold natLen
        rw [natDigits_small 5 (by omega)]
        simp
      omega
    omega
  simp only [List.map_append, List.sum_append, List.length_append,
    List.map_cons, List.sum_cons, List.length_cons, List.map_nil, List.sum_nil,
    List.length_nil]
  omega

theorem tableScan_found : ∀ (ts : List Dom) (mi mt : Nat)
    (r : String × SketchMeta), tableScan mi mt ts = .found r →
    ∃ t ∈ ts, r.1 = sketchTable t mi mt := by
  intro ts
  induction ts with
  | nil =>
      intro mi mt r h
      simp [tableScan] at h
  | cons t ts ih =>
      intro mi mt r h
      simp only [tableScan] at h
      split at h
      · split at h
        · rename_i sel hsel
          injection h with h'
          refine ⟨t, List.mem_cons_self _ _, ?_⟩
          rw [← h']
        · exact absurd h (by simp)
      · obtain ⟨t2, ht2, hr⟩ := ih mi mt r h
        exact ⟨t2, List.mem_cons_of_mem _ ht2, hr⟩

theorem kwScan_some : ∀ (ps : List (String × List String)) (mi : Nat)
    (tree : Dom) (r : String × SketchMeta), kwScan mi tree ps = some r →
    ∃ kw al, r.1 = sketchRepeated ((collectKw kw al tree).take mi) := by
  intro ps
  induction ps with
  | nil =>
      intro mi tree r h
      simp [kwScan] at h
  | cons p ps ih =>
      intro mi tree r h
      obtain ⟨kw, al⟩ := p
      simp only [kwScan] at h
      split at h
      · have h' := Option.some.inj h
        exact ⟨kw, al, by rw [← h']⟩
      · exact ih mi tree r h

theorem maxTagLen_collectKw (kw : String) (al : List String) (d : Dom) :
    ∀ e ∈ collectKw kw al d, maxTagLen e ≤ maxTagLen d := by
  intro e he
  match d with
  | .txt s => simp [collectKw] at he
  | .elem t a ch =>
      simp only [collectKw] at he
      have h := maxTagLen_collectKwL ch kw al false e he
      simp only [maxTagLen]
      exact le_trans h (Nat.le_max_right _ _)

/-- C8 (amended): the sketch text of make_dom_sketch is NOT bounded by a
constant independent of the input (the table strategy's row-count comment and
the untruncated tag names grow with it — see the counterexample); it is
bounded by sketchBound: a constant in max_items and max_text, plus a linear
term in the longest tag name of the tree, plus twice the decimal digit count
of the tree's element count.  Determinism holds by construction: the
embedding makeDomSketch is a pure function of (html, tree, max_items,
max_text) with no network or model call. -/
theorem c8_sketch_bound : ∀ (html : String) (tree : Dom) (mi mt : Nat),
    (((makeDomSketch html tree mi mt).map (fun r => r.1.length)).getD 0)
      ≤ sketchBound mi mt (maxTagLen tree) (elemCount tree) := by
  intro html tree mi mt
  have hexp : (mi + 60) * (500 + mt + 2 * maxTagLen tree) * 12
      = 12 * mi * (500 + mt + 2 * maxTagLen tree)
        + 720 * (500 + mt + 2 * maxTagLen tree) := by ring
  have hlin : 720 * (500 + mt + 2 * maxTagLen tree)
      = 360000 + 720 * mt + 1440 * maxTagLen tree := by ring
  have hge : 12 * mi * 500 ≤ 12 * mi * (500 + mt + 2 * maxTagLen tree) :=
    Nat.mul_le_mul_left _ (by omega)
  have hge2 : 12 * mi * 500 = 6000 * mi := by ring
  simp only [makeDomSketch]
  rcases hts : tableScan mi mt (cssTag ["table"] (stripNoise tree)) with _ | _ | r
  · simp [sketchBound]
  ·
    dsimp only
    cases hkw : kwScan mi (stripNoise tree) kwPatterns with
    | some r =>
        obtain ⟨kw, al, hr⟩ := kwScan_some _ mi (stripNoise tree) r hkw
        show r.1.length ≤ sketchBound mi mt (maxTagLen tree) (elemCount tree)
        rw [hr]
        have hT : ∀ e ∈ (collectKw kw al (stripNoise tree)).take mi,
            maxTagLen e ≤ maxTagLen tree := by
          intro e he
          exact le_trans
            (maxTagLen_collectKw kw al _ e (List.take_subset _ _ he))
            (maxTagLen_strip tree)
        have hb := sketchRepeated_len _ (maxTagLen tree) hT
        have hnl : natLen ((collectKw kw al (stripNoise tree)).take mi).length
            ≤ mi + 1 := by
          have h1 := natLen_le_succ
            ((collectKw kw al (stripNoise tree)).take mi).length
          have h2 := List.length_take_le mi (collectKw kw al (stripNoise tree))
          omega
        unfold sketchBound
        omega
    | none =>
        dsimp only
        split
        · show (sketchRepeated
              (((cssTag ["div", "article", "li"] (stripNoise tree)).filter
                  (fun e => 50 < (textDS e).length
                    && markerIn (textDS e))).take mi)).length
            ≤ sketchBound mi mt (maxTagLen tree) (elemCount tree)
          have hT : ∀ e ∈ ((cssTag ["div", "article", "li"]
              (stripNoise tree)).filter (fun e =>
                50 < (textDS e).length && markerIn (textDS e))).take mi,
              maxTagLen e ≤ maxTagLen tree := by
            intro e he
            have hd : e ∈ descElems (stripNoise tree) :=
              List.mem_of_mem_filter
                (List.mem_of_mem_filter (List.take_subset _ _ he))
            exact le_trans (maxTagLen_desc _ e hd) (maxTagLen_strip tree)
          have hb := sketchRepeated_len _ (maxTagLen tree) hT
          have hnl : natLen (((cssTag ["div", "article", "li"]
              (stripNoise tree)).filter (fun e =>
                50 < (textDS e).length
                  && markerIn (textDS e))).take mi).length ≤ mi + 1 := by
            have h1 := natLen_le_succ (((cssTag ["div", "article", "li"]
              (stripNoise tree)).filter (fun e =>
                50 < (textDS e).length && markerIn (textDS e))).take mi).length
            have h2 := List.length_take_le mi ((cssTag ["div", "article", "li"]
              (stripNoise tree)).filter (fun e =>
                50 < (textDS e).length && markerIn (textDS e)))
            omega
          unfold sketchBound
          omega
        · show (pyTake html 25000).length
            ≤ sketchBound mi mt (maxTagLen tree) (elemCount tree)
          have := pyTake_len html 25000
          unfold sketchBound
          omega
  ·
    obtain ⟨t, hmem, hr⟩ := tableScan_found _ mi mt r hts
    show r.1.length ≤ sketchBound mi mt (maxTagLen tree) (elemCount tree)
    rw [hr]
    have htd : t ∈ descElems (stripNoise tree) := List.mem_of_mem_filter hmem
    have hT : maxTagLen t ≤ maxTagLen tree :=
      le_trans (maxTagLen_desc _ t htd) (maxTagLen_strip tree)
    have hbound := sketchTable_len t mi mt (maxTagLen tree) hT
    have hR : (allRowsOf t).length ≤ elemCount tree := by
      have h1 : (allRowsOf t).length ≤ (descElems t).length :=
        le_trans (List.length_filter_le _ _) (List.length_filter_le _ _)
      have h2 := descElems_len t
      have h3 := elemCount_desc _ t htd
      have h4 := elemCount_strip tree
      omega
    have hRn : natLen (allRowsOf t).length ≤ natLen (elemCount tree) :=
      natLen_mono _ _ hR
    have hm : 12 * mi * (310 + mt + 2 * maxTagLen tree)
        ≤ 12 * mi * (500 + mt + 2 * maxTagLen tree) :=
      Nat.mul_le_mul_left _ (by omega)
    unfold sketchBound
    omega

/-! ## Evaluation of the sketch on a growing table -/

theorem stripNoise_rowT : stripNoise rowT = rowT := by
  simp [rowT, stripNoise, stripNoiseL, noiseTag]

theorem stripNoiseL_rep (n : Nat) :
    stripNoiseL (List.replicate n rowT) = List.replicate n rowT := by
  induction n with
  | zero => simp [stripNoiseL]
  | succ k ih =>
      rw [List.replicate_succ]
      simp only [stripNoiseL]
      rw [ih]
      have h1 : noiseTag "tr" = false := by simp [noiseTag]
      simp only [rowT, h1, Bool.false_eq_true, if_false]
      rw [← rowT]
      rw [stripNoise_rowT]
      simp

theorem stripNoise_bigTable (n : Nat) : stripNoise (bigTable n) = bigTable n := by
  simp only [bigTable, stripNoise, stripNoiseL]
  have h1 : noiseTag "table" = false := by simp [noiseTag]
  simp only [h1, Bool.false_eq_true, if_false]
  rw [stripNoiseL_rep]
  simp [stripNoise]

theorem descElems_rowT :
    descElems rowT = [Dom.elem "td" [] [Dom.txt "data"]] := by
  simp [rowT, descElems, descElemsL]

theorem tag_descL_rep (n : Nat) :
    ∀ e ∈ descElemsL (List.replicate n rowT),
      tagOf e = "tr" ∨ tagOf e = "td" := by
  induction n with
  | zero =>
      intro e he
      simp [descElemsL] at he
  | succ k ih =>
      intro e he
      rw [List.replicate_succ] at he
      simp only [descElemsL] at he
      rcases List.mem_append.mp he with h1 | h2
      · simp only [rowT] at h1
        rcases List.mem_cons.mp h1 with rfl | h1b
        · left
          rfl
        · rw [← rowT] at h1b
          rw [descElems_rowT] at h1b
          rcases List.mem_singleton.mp h1b with rfl
          right
          rfl
      · exact ih e h2

theorem cssTable_bigTable (n : Nat) :
    cssTag ["table"] (bigTable n)
      = [Dom.elem "table" [] (List.replicate n rowT)] := by
  simp only [cssTag, bigTable, descElems, descElemsL]
  rw [List.append_nil, List.filter_cons]
  have h1 : (["table"].contains (tagOf
      (Dom.elem "table" [] (List.replicate n rowT)))) = true := by
    simp [tagOf]
  rw [if_pos h1]
  have h2 : (descElemsL (List.replicate n rowT)).filter
      (fun e => ["table"].contains (tagOf e)) = [] := by
    rw [List.filter_eq_nil_iff]
    intro e he
    rcases tag_descL_rep n e he with h | h <;> simp [h]
  rw [h2]

theorem cssTd_rowT : cssTag ["td"] rowT = [Dom.elem "td" [] [Dom.txt "data"]] := by
  simp [cssTag, descElems_rowT, tagOf]

theorem cssTr_rep (n : Nat) :
    (descElemsL (List.replicate n rowT)).filter
      (fun e => ["tr"].contains (tagOf e)) = List.replicate n rowT := by
  induction n with
  | zero => simp [descElemsL]
  | succ k ih =>
      rw [List.replicate_succ]
      simp only [descElemsL]
      rw [List.filter_append, ih]
      have hd : descElems rowT = [Dom.elem "td" [] [Dom.txt "data"]] :=
        descElems_rowT
      simp only [rowT] at hd ⊢
      rw [List.filter_cons, hd]
      have h1 : (["tr"].contains (tagOf (Dom.elem "tr" []
          [Dom.elem "td" [] [Dom.txt "data"]]))) = true := by
        simp [tagOf]
      rw [if_pos h1]
      have h2 : ([Dom.elem "td" [] [Dom.txt "data"]]).filter
          (fun e => ["tr"].contains (tagOf e)) = [] := by
        simp [tagOf]
      rw [h2]
      simp

theorem allRowsOf_bigTable (n : Nat) :
    allRowsOf (Dom.elem "table" [] (List.replicate n rowT))
      = List.replicate n rowT := by
  have hcss : cssTag ["tr"] (Dom.elem "table" [] (List.replicate n rowT))
      = List.replicate n rowT := by
    simp only [cssTag, descElems]
    exact cssTr_rep n
  simp only [allRowsOf]
  rw [hcss]
  apply List.filter_eq_self.mpr
  intro r hr
  have hre := List.eq_of_mem_replicate hr
  subst hre
  rw [cssTd_rowT]
  simp

theorem dataRowsOf_bigTable (n : Nat) (hn : 5 ≤ n) :
    dataRowsOf (Dom.elem "table" [] (List.replicate n rowT))
      = List.replicate n rowT := by
  simp only [dataRowsOf]
  have h := allRowsOf_bigTable n
  simp only [allRowsOf] at h
  rw [h]
  rw [if_neg]
  rw [List.length_replicate]
  omega

theorem tableSelector_bigTable (n : Nat) :
    tableSelector (Dom.elem "table" [] (List.replicate n rowT))
      = some "table" := by
  simp [tableSelector, attrD, getAttr]

theorem makeDomSketch_bigTable (html : String) (n mi mt : Nat) (hn : 5 ≤ n) :
    makeDomSketch html (bigTable n) mi mt
      = some (sketchTable (Dom.elem "table" [] (List.replicate n rowT)) mi mt,
              ⟨"table", n, "table"⟩) := by
  simp only [makeDomSketch]
  rw [stripNoise_bigTable, cssTable_bigTable]
  have hscan : tableScan mi mt [Dom.elem "table" [] (List.replicate n rowT)]
      = .found (sketchTable (Dom.elem "table" [] (List.replicate n rowT)) mi mt,
          ⟨"table", n, "table"⟩) := by
    simp only [tableScan]
    rw [dataRowsOf_bigTable n hn, List.length_replicate]
    rw [if_pos (by omega : 3 ≤ n)]
    rw [tableSelector_bigTable]
  rw [hscan]

theorem sketchTable_len_lower (tbl : Dom) (mi mt : Nat) :
    natLen (allRowsOf tbl).length ≤ (sketchTable tbl mi mt).length := by
  simp only [sketchTable]
  refine le_trans ?_ (joinNL_mem_le _
    ("<!-- Total rows: " ++ natStr (allRowsOf tbl).length
      ++ " (showing " ++ natStr ((allRowsOf tbl).take mi).length ++ ") -->") ?_)
  · simp only [String.length_append]
    have h4 : (natStr (allRowsOf tbl).length).length
        = natLen (allRowsOf tbl).length := rfl
    omega
  · simp

/-- C8 counterexample to the unamended claim: no constant bounds the sketch
length over all inputs.  A table of 10^(C+1) one-cell rows matches the table
strategy, whose "Total rows" comment prints the full row count in decimal, so
the sketch is at least C+2 characters long. -/
theorem c8_counterexample :
    ¬ ∃ C : Nat, ∀ (html : String) (tree : Dom),
      (((makeDomSketch html tree 5 120).map (fun r => r.1.length)).getD 0)
        ≤ C := by
  rintro ⟨C, hC⟩
  have hn : 5 ≤ 10 ^ (C + 1) := by
    have h := Nat.pow_le_pow_right (by omega : 1 ≤ 10) (by omega : 1 ≤ C + 1)
    simp only [pow_one] at h
    omega
  have heval := makeDomSketch_bigTable "" (10 ^ (C + 1)) 5 120 hn
  have hlow := sketchTable_len_lower
    (Dom.elem "table" [] (List.replicate (10 ^ (C + 1)) rowT)) 5 120
  have hAR : (allRowsOf (Dom.elem "table" []
      (List.replicate (10 ^ (C + 1)) rowT))).length = 10 ^ (C + 1) := by
    rw [allRowsOf_bigTable, List.length_replicate]
  have hdig := natLen_pow10 (C + 1)
  have hthis := hC "" (bigTable (10 ^ (C + 1)))
  rw [heval] at hthis
  simp only [Option.map_some', Option.getD_some] at hthis
  rw [hAR, hdig] at hlow
  omega
